import Mathlib

/-! Granule of the column store (`granule.go`)

A shallow embedding of `Granule`, `GranuleIterator` and their methods, with the
collaborators that `granule.go` only uses (`Row`, `Part`, `PartIterator`,
`NewPart`, `Merge`) modelled at their interface.

Conventions of the embedding
* a method with a pointer receiver that can write the receiver returns the
  receiver after the call next to its result;
* a Go panic is an `Except.error` carrying a `Fault`;
* Go `int` is `Int` with the two's complement wrap-around of the 64-bit word
  made explicit (`wrapInt`) where the code computes with it;
* the capacities that `make` accepts are a parameter `lim : MakeLimits`;
* where the identity of a part matters, `parts []*Part` is a list of addresses
  into a store of parts (`GranuleRef`), next to the embedding on values;
* `Row.Less` is a parameter `less : Row V → Row V → Bool`, the schema check of
  part construction is a parameter `conforms : S → Row V → Bool`.
-/

namespace columnstore

/-! ## Collaborators -/

/-- Row of a table: `Row{Values: ...}`. The column values are of type `V`. -/
structure Row (V : Type) where
  Values : List V
deriving DecidableEq, Repr

/-- The zero value of `Row` (a nil `Values` slice). -/
def Row.zero {V : Type} : Row V := ⟨[]⟩

instance {V : Type} : Inhabited (Row V) := ⟨Row.zero⟩

/-- Outcome of a call that panics. `outOfFuel` is no behaviour of the program:
it marks a bounded loop of the embedding that ran out of steps, and the
callers below always supply enough steps. -/
inductive Fault where
  | indexOutOfRange
  | divideByZero
  | capOutOfRange
  | panicked (msg : String)
  | outOfFuel
deriving DecidableEq, Repr

deriving instance DecidableEq for Except

/-- The largest value of Go `int` on a 64-bit platform. -/
def MaxInt : Int := 9223372036854775807

/-- The smallest value of Go `int` on a 64-bit platform. -/
def MinInt : Int := -9223372036854775808

/-- The `int` that a computation with the exact result `x` yields: the
representative of `x` modulo 2^64 between `MinInt` and `MaxInt`. -/
def wrapInt (x : Int) : Int :=
  (x + 9223372036854775808) % 18446744073709551616 - 9223372036854775808

/-- The capacities that `make` accepts: `make([]*Granule, 0, c)` returns for
`0 ≤ c ≤ maxGranules` and `make([]Row, 0, c)` for `0 ≤ c ≤ maxRows`; for any
other capacity `make` does not return (makeslice: cap out of range). The bounds
depend on the platform, on the size of the elements and on the memory at hand;
a capacity is an `int`. -/
structure MakeLimits where
  maxGranules : Int
  maxRows : Int
  maxGranules_le : maxGranules ≤ MaxInt
  maxRows_le : maxRows ≤ MaxInt

/-- The largest limits there are on a 64-bit platform with 48 bits of heap
address: the runtime refuses a slice of more than 2^48 bytes, whatever memory
there is. A `*Granule` takes 8 bytes and a `Row`, with its one slice field, 24
bytes; with larger elements the limits are lower. -/
def limits64 : MakeLimits :=
  { maxGranules := 35184372088832, maxRows := 11728124029610,
    maxGranules_le := by decide, maxRows_le := by decide }

/-- Modelled from the spec: the type `Part` is not in `granule.go`. A part is an
immutable run of rows with a declared cardinality and the schema of its columns;
`granule.go` reads the fields `schema` and `Cardinality`. -/
structure Part (S V : Type) where
  schema : S
  rows : List (Row V)
  Cardinality : Int
deriving DecidableEq, Repr

/-- Modelled from the spec: the type `PartIterator` is not in `granule.go`. A
forward iterator over the rows of a part: the rows not yet visited, the row it
stands on, and the fault it met, if any. -/
structure PartIterator (V : Type) where
  pending : List (Row V)
  current : Row V
  err : Option String
deriving DecidableEq, Repr

/-- Modelled from the spec: `Part.Iterator` is not in `granule.go`. The iterator
starts before the first row. -/
def Part.Iterator {S V : Type} (p : Part S V) : PartIterator V :=
  { pending := p.rows, current := Row.zero, err := none }

/-- Modelled from the spec: `PartIterator.Next` is not in `granule.go`. It moves
to the next row and tells whether there was one. -/
def PartIterator.Next {V : Type} (it : PartIterator V) : Bool × PartIterator V :=
  match it.pending with
  | [] => (false, it)
  | r :: rest => (true, { it with pending := rest, current := r })

/-- Modelled from the spec: `PartIterator.Values` is not in `granule.go`. The
column values of the current row. -/
def PartIterator.Values {V : Type} (it : PartIterator V) : List V :=
  it.current.Values

/-- Modelled from the spec: `PartIterator.Err` is not in `granule.go`. -/
def PartIterator.Err {V : Type} (it : PartIterator V) : Option String :=
  it.err

/-- A run of rows is sorted when no row is `Less` than a row before it. -/
def Sorted {V : Type} (less : Row V → Row V → Bool) (rows : List (Row V)) : Prop :=
  rows.Pairwise (fun a b => less b a = false)

instance {V : Type} (less : Row V → Row V → Bool) (rows : List (Row V)) :
    Decidable (Sorted less rows) := by
  unfold Sorted; infer_instance

/-- Modelled from the spec: `NewPart` is not in `granule.go`. It builds a part
from a schema and rows, and "fails if rows violate schema or sort order
expectations"; the cardinality of a part is its exact row count. -/
def NewPart {S V : Type} (conforms : S → Row V → Bool) (less : Row V → Row V → Bool)
    (schema : S) (rows : List (Row V)) : Except String (Part S V) :=
  if rows.all (conforms schema) = true ∧ Sorted less rows then
    .ok { schema := schema, rows := rows, Cardinality := (rows.length : Int) }
  else
    .error "rows violate the schema or the sort order"

/-- Two-way merge of runs of rows, at most `fuel` rows: the smaller head goes
first, the head of the first run when neither is `Less`. -/
def mergeTwo.go {V : Type} (less : Row V → Row V → Bool) :
    Nat → List (Row V) → List (Row V) → List (Row V)
  | _, [], ys => ys
  | _, xs, [] => xs
  | 0, xs, ys => xs ++ ys
  | fuel + 1, x :: xs, y :: ys =>
    if less y x then y :: mergeTwo.go less fuel (x :: xs) ys
    else x :: mergeTwo.go less fuel xs (y :: ys)

/-- Two-way merge of runs of rows. -/
def mergeTwo {V : Type} (less : Row V → Row V → Bool) (xs ys : List (Row V)) : List (Row V) :=
  mergeTwo.go less (xs.length + ys.length) xs ys

/-- The rows of several sorted runs merged into one run: the runs are merged
pairwise, a row of an earlier run going first among equivalent rows. -/
def mergeRows {V : Type} (less : Row V → Row V → Bool) : List (List (Row V)) → List (Row V)
  | [] => []
  | rs :: rss => mergeTwo less rs (mergeRows less rss)

/-- Modelled from the spec: `Merge` is not in `granule.go`. It "combines multiple
sorted Parts into one sorted Part preserving total ordering of all input rows;
fails on schema mismatch or internal encoding error". The merged part has the
schema of the parts (the default schema when there is no part) and its exact row
count as cardinality. -/
def Merge {S V : Type} [DecidableEq S] [Inhabited S] (less : Row V → Row V → Bool)
    (parts : List (Part S V)) : Except String (Part S V) :=
  let schema := (parts.head?.map Part.schema).getD default
  if parts.all (fun q => decide (q.schema = schema)) = true then
    let rows := mergeRows less (parts.map Part.rows)
    .ok { schema := schema, rows := rows, Cardinality := (rows.length : Int) }
  else
    .error "schema mismatch"

/-! ## Granule -/

/-- The struct `Granule`: the cached least row and the parts. -/
structure Granule (S V : Type) where
  least : Row V
  parts : List (Part S V)
deriving DecidableEq, Repr

/-- Loop of `NewGranule` (`for i, p := range parts`), from index `i` on. -/
def NewGranule.loop {S V : Type} (less : Row V → Row V → Bool) :
    Nat → List (Part S V) → Granule S V → Granule S V
  | _, [], g => g
  | i, p :: ps, g =>
    let (ok, it) := p.Iterator.Next
    if ok then
      let r : Row V := { Values := it.Values }
      match i with
      | 0 => NewGranule.loop less (i + 1) ps { g with least := r }
      | _ =>
        if less r g.least then NewGranule.loop less (i + 1) ps { g with least := r }
        else NewGranule.loop less (i + 1) ps g
    else NewGranule.loop less (i + 1) ps g

/-- The function `NewGranule(parts...)`. -/
def NewGranule {S V : Type} (less : Row V → Row V → Bool) (parts : List (Part S V)) :
    Granule S V :=
  NewGranule.loop less 0 parts { least := Row.zero, parts := parts }

/-- The method `AddPart(p)`; returns the granule after the call. -/
def Granule.AddPart {S V : Type} (less : Row V → Row V → Bool) (g : Granule S V)
    (p : Part S V) : Granule S V :=
  let g1 : Granule S V := { g with parts := g.parts ++ [p] }
  let (ok, it) := p.Iterator.Next
  if ok then
    let r : Row V := { Values := it.Values }
    if less r g1.least then { g1 with least := r } else g1
  else g1

/-- The method `Cardinality()`: the count, and the granule after the call.
`res += p.Cardinality` is an addition of `int`. -/
def Granule.Cardinality {S V : Type} (g : Granule S V) : Int × Granule S V :=
  (g.parts.foldl (fun res p => wrapInt (res + p.Cardinality)) 0, g)

/-- The number of granules `Split` prepares room for (`count`): the quotient
`Cardinality / n` of `int`, truncated toward zero, plus one when the remainder
is not zero. -/
def splitCount (cardinality n : Int) : Int :=
  let count := wrapInt (Int.tdiv cardinality n)
  if Int.tmod cardinality n ≠ 0 then wrapInt (count + 1) else count

/-- Loop of `Split` (`for it.Next()`): `rows` is the batch being filled and
`granules` the granules built so far; returns both after the loop. -/
def Granule.Split.loop {S V : Type} (conforms : S → Row V → Bool)
    (less : Row V → Row V → Bool) (schema : S) (n : Int) :
    Nat → PartIterator V → List (Row V) → List (Granule S V) →
      Except Fault (List (Row V) × List (Granule S V))
  | 0, _, _, _ => .error .outOfFuel
  | fuel + 1, it, rows, granules =>
    let (ok, it1) := it.Next
    if ok then
      let rows1 := rows ++ [({ Values := it1.Values } : Row V)]
      if (rows1.length : Int) = n then
        match NewPart conforms less schema rows1 with
        | .error _ => .error (.panicked "dun goofed")
        | .ok p => Granule.Split.loop conforms less schema n fuel it1 []
            (granules ++ [NewGranule less [p]])
      else Granule.Split.loop conforms less schema n fuel it1 rows1 granules
    else .ok (rows, granules)

/-- The method `Split(n)`: the granules returned, and the receiver after the
call. `make([]*Granule, 0, count)` and `make([]Row, 0, n)` panic when the
capacity is negative or above the limit of the runtime. -/
def Granule.Split {S V : Type} (lim : MakeLimits) (conforms : S → Row V → Bool)
    (less : Row V → Row V → Bool) (g : Granule S V) (n : Int) :
    Except Fault (List (Granule S V) × Granule S V) :=
  if g.parts.length > 1 then .ok ([g], g)
  else
    match g.parts with
    | [] => .error .indexOutOfRange
    | p0 :: _ =>
      if n = 0 then .error .divideByZero
      else
        let count := splitCount p0.Cardinality n
        if count < 0 ∨ lim.maxGranules < count then .error .capOutOfRange
        else if n < 0 ∨ lim.maxRows < n then .error .capOutOfRange
        else
          match Granule.Split.loop conforms less p0.schema n (p0.rows.length + 1)
              p0.Iterator [] [] with
          | .error e => .error e
          | .ok (rows, granules) =>
            if rows.length ≠ 0 then
              match NewPart conforms less p0.schema rows with
              | .error _ => .error (.panicked "dun goofed")
              | .ok p => .ok (granules ++ [NewGranule less [p]], g)
            else .ok (granules, g)

/-- The struct `GranuleIterator`. -/
structure GranuleIterator (V : Type) where
  its : List (PartIterator V)
  currPartIndex : Nat
deriving DecidableEq, Repr

/-- The method `Iterator()`: the iterator returned, and the receiver after the
call (its parts replaced by the merged part). -/
def Granule.Iterator {S V : Type} [DecidableEq S] [Inhabited S] (less : Row V → Row V → Bool)
    (g : Granule S V) : Except Fault (GranuleIterator V × Granule S V) :=
  match Merge less g.parts with
  | .error _ => .error (.panicked "merge failure")
  | .ok p =>
    let g1 : Granule S V := { g with parts := [p] }
    let its := g1.parts.map Part.Iterator
    .ok ({ its := its, currPartIndex := 0 }, g1)

/-- The method `GranuleIterator.Next()`: its result, and the iterator after the
call. -/
def GranuleIterator.Next {V : Type} (gi : GranuleIterator V) :
    Except Fault (Bool × GranuleIterator V) :=
  match gi.its[gi.currPartIndex]? with
  | none => .error .indexOutOfRange
  | some it =>
    let (ok, it1) := it.Next
    let gi1 : GranuleIterator V := { gi with its := gi.its.set gi.currPartIndex it1 }
    if ok then .ok (true, gi1)
    else
      let gi2 : GranuleIterator V := { gi1 with currPartIndex := gi1.currPartIndex + 1 }
      if gi2.currPartIndex ≥ gi2.its.length then .ok (false, gi2)
      else
        match gi2.its[gi2.currPartIndex]? with
        | none => .error .indexOutOfRange
        | some it2 =>
          let (ok2, it3) := it2.Next
          .ok (ok2, { gi2 with its := gi2.its.set gi2.currPartIndex it3 })

/-- The method `GranuleIterator.Row()`. -/
def GranuleIterator.Row {V : Type} (gi : GranuleIterator V) :
    Except Fault (columnstore.Row V) :=
  match gi.its[gi.currPartIndex]? with
  | none => .error .indexOutOfRange
  | some it => .ok { Values := it.Values }

/-- The method `GranuleIterator.Err()`. -/
def GranuleIterator.Err {V : Type} (gi : GranuleIterator V) :
    Except Fault (Option String) :=
  match gi.its[gi.currPartIndex]? with
  | none => .error .indexOutOfRange
  | some it => .ok it.Err

/-- The method `Granule.Less(than)`. -/
def Granule.Less {S V : Type} (less : Row V → Row V → Bool) (g than : Granule S V) : Bool :=
  less g.least than.least

/-- A caller draining an iterator: call `Next` until it returns false and read
`Row` after each true; at most `fuel` calls of `Next`. Returns the rows read and
the iterator after the last call. -/
def GranuleIterator.drainLoop {V : Type} :
    Nat → GranuleIterator V → Except Fault (List (columnstore.Row V) × GranuleIterator V)
  | 0, _ => .error .outOfFuel
  | fuel + 1, gi =>
    match gi.Next with
    | .error e => .error e
    | .ok (false, gi1) => .ok ([], gi1)
    | .ok (true, gi1) =>
      match gi1.Row with
      | .error e => .error e
      | .ok r =>
        match GranuleIterator.drainLoop fuel gi1 with
        | .error e => .error e
        | .ok (rs, gi2) => .ok (r :: rs, gi2)

/-- Draining with one call of `Next` per pending row and one more call that
sees the end of the rows. -/
def GranuleIterator.drain {V : Type} (gi : GranuleIterator V) :
    Except Fault (List (columnstore.Row V) × GranuleIterator V) :=
  GranuleIterator.drainLoop ((gi.its.map (fun it => it.pending.length)).sum + 1) gi

/-! ## Parts as pointers

The field `parts []*Part` holds pointers. Where the identity of a part matters,
a `*Part` is the address of the part in the store of the parts allocated so
far, and the functions below are `NewGranule` and `Split` on such pointers. -/

/-- The struct `Granule` with `parts []*Part` as addresses into the store. -/
structure GranuleRef (V : Type) where
  least : Row V
  parts : List Nat
deriving DecidableEq, Repr

/-- Modelled from the spec: `NewPart` is not in `granule.go`. `Split` is to
"construct a new Part" for each group of rows: the part that `NewPart` builds is
allocated at the next free address of the store, and its address is returned. -/
def NewPartRef {S V : Type} (conforms : S → Row V → Bool) (less : Row V → Row V → Bool)
    (store : List (Part S V)) (schema : S) (rows : List (Row V)) :
    Except String (Nat × List (Part S V)) :=
  match NewPart conforms less schema rows with
  | .error e => .error e
  | .ok p => .ok (store.length, store ++ [p])

/-- Loop of `NewGranule` on pointers; `p.Iterator()` dereferences `p`. -/
def NewGranuleRef.loop {S V : Type} (less : Row V → Row V → Bool) (store : List (Part S V)) :
    Nat → List Nat → GranuleRef V → Except Fault (GranuleRef V)
  | _, [], g => .ok g
  | i, a :: rest, g =>
    match store[a]? with
    | none => .error (.panicked "invalid memory address or nil pointer dereference")
    | some p =>
      let (ok, it) := p.Iterator.Next
      if ok then
        let r : Row V := { Values := it.Values }
        match i with
        | 0 => NewGranuleRef.loop less store (i + 1) rest { g with least := r }
        | _ =>
          if less r g.least then NewGranuleRef.loop less store (i + 1) rest { g with least := r }
          else NewGranuleRef.loop less store (i + 1) rest g
      else NewGranuleRef.loop less store (i + 1) rest g

/-- The function `NewGranule(parts...)` on pointers. -/
def NewGranuleRef {S V : Type} (less : Row V → Row V → Bool) (store : List (Part S V))
    (parts : List Nat) : Except Fault (GranuleRef V) :=
  NewGranuleRef.loop less store 0 parts { least := Row.zero, parts := parts }

/-- Loop of `Split` on pointers: as `Granule.Split.loop`, with the store of the
parts allocated so far. -/
def GranuleRef.Split.loop {S V : Type} (conforms : S → Row V → Bool)
    (less : Row V → Row V → Bool) (schema : S) (n : Int) :
    Nat → PartIterator V → List (Row V) → List (GranuleRef V) → List (Part S V) →
      Except Fault (List (Row V) × List (GranuleRef V) × List (Part S V))
  | 0, _, _, _, _ => .error .outOfFuel
  | fuel + 1, it, rows, granules, store =>
    let (ok, it1) := it.Next
    if ok then
      let rows1 := rows ++ [({ Values := it1.Values } : Row V)]
      if (rows1.length : Int) = n then
        match NewPartRef conforms less store schema rows1 with
        | .error _ => .error (.panicked "dun goofed")
        | .ok (a, store1) =>
          match NewGranuleRef less store1 [a] with
          | .error e => .error e
          | .ok h => GranuleRef.Split.loop conforms less schema n fuel it1 []
              (granules ++ [h]) store1
      else GranuleRef.Split.loop conforms less schema n fuel it1 rows1 granules store
    else .ok (rows, granules, store)

/-- The method `Split(n)` on pointers: the granules returned, the receiver after
the call and the store after the call. -/
def GranuleRef.Split {S V : Type} (lim : MakeLimits) (conforms : S → Row V → Bool)
    (less : Row V → Row V → Bool) (store : List (Part S V)) (g : GranuleRef V) (n : Int) :
    Except Fault (List (GranuleRef V) × GranuleRef V × List (Part S V)) :=
  if g.parts.length > 1 then .ok ([g], g, store)
  else
    match g.parts with
    | [] => .error .indexOutOfRange
    | a0 :: _ =>
      match store[a0]? with
      | none => .error (.panicked "invalid memory address or nil pointer dereference")
      | some p0 =>
        if n = 0 then .error .divideByZero
        else
          let count := splitCount p0.Cardinality n
          if count < 0 ∨ lim.maxGranules < count then .error .capOutOfRange
          else if n < 0 ∨ lim.maxRows < n then .error .capOutOfRange
          else
            match GranuleRef.Split.loop conforms less p0.schema n (p0.rows.length + 1)
                p0.Iterator [] [] store with
            | .error e => .error e
            | .ok (rows, granules, store1) =>
              if rows.length ≠ 0 then
                match NewPartRef conforms less store1 p0.schema rows with
                | .error _ => .error (.panicked "dun goofed")
                | .ok (a, store2) =>
                  match NewGranuleRef less store2 [a] with
                  | .error e => .error e
                  | .ok h => .ok (granules ++ [h], g, store2)
              else .ok (granules, g, store1)

/-! ## Vocabulary of the statements -/

/-- The first rows of the parts that have one, in part order. -/
def firstRows {S V : Type} (parts : List (Part S V)) : List (Row V) :=
  parts.filterMap (fun p => p.rows.head?)

/-- Lexicographic order on the values of two rows of integers, a row that is a
proper prefix going first; used for the concrete scenarios. -/
def lexLess : Row Int → Row Int → Bool :=
  fun a b => decide (a.Values < b.Values)

/-- A part of one-column integer rows, as `NewPart` builds it. -/
def intPart (xs : List Int) : Part Unit Int :=
  { schema := (), rows := xs.map (fun x => ⟨[x]⟩), Cardinality := (xs.length : Int) }

/-- The laws of `Row.Less` ("a total order, consistent and transitive") that the
statements rely on: irreflexive, transitive, and "not Less" transitive. -/
structure RowOrder {V : Type} (less : Row V → Row V → Bool) : Prop where
  irrefl : ∀ a, less a a = false
  trans : ∀ a b c, less a b = true → less b c = true → less a c = true
  negTrans : ∀ a b c, less a b = false → less b c = false → less a c = false

/-- One comparison of the cached least `m` with a candidate `r`. -/
def keepLeast {V : Type} (less : Row V → Row V → Bool) (m r : Row V) : Row V :=
  if less r m then r else m

/-- All rows of a list of parts, part after part. -/
def allRows {S V : Type} : List (Part S V) → List (Row V)
  | [] => []
  | p :: ps => p.rows ++ allRows ps

/-- A part as `NewPart` and `Merge` build it: its rows conform to its schema and
are sorted, and its cardinality is its row count. -/
def Part.WellFormed {S V : Type} (conforms : S → Row V → Bool) (less : Row V → Row V → Bool)
    (p : Part S V) : Prop :=
  (∀ r ∈ p.rows, conforms p.schema r = true) ∧ Sorted less p.rows ∧
    p.Cardinality = (p.rows.length : Int)

instance {S V : Type} (conforms : S → Row V → Bool) (less : Row V → Row V → Bool)
    (p : Part S V) : Decidable (p.WellFormed conforms less) := by
  unfold Part.WellFormed; infer_instance

/-- A part on whose batches of rows part construction succeeds: its rows conform
to its schema and are sorted. -/
def Part.Buildable {S V : Type} (conforms : S → Row V → Bool) (less : Row V → Row V → Bool)
    (p : Part S V) : Prop :=
  (∀ r ∈ p.rows, conforms p.schema r = true) ∧ Sorted less p.rows

instance {S V : Type} (conforms : S → Row V → Bool) (less : Row V → Row V → Bool)
    (p : Part S V) : Decidable (p.Buildable conforms less) := by
  unfold Part.Buildable; infer_instance

/-- The two `make` calls of `Split(n)` on a part of the given cardinality
return: the count of granules and the batch size `n` are capacities that `make`
accepts. -/
def SplitFits (lim : MakeLimits) (cardinality n : Int) : Prop :=
  (0 ≤ splitCount cardinality n ∧ splitCount cardinality n ≤ lim.maxGranules) ∧
    (0 ≤ n ∧ n ≤ lim.maxRows)

instance (lim : MakeLimits) (cardinality n : Int) : Decidable (SplitFits lim cardinality n) := by
  unfold SplitFits; infer_instance

/-- The rows held by a list of granules, granule after granule and, within a
granule, part after part. -/
def granuleRows {S V : Type} : List (Granule S V) → List (Row V)
  | [] => []
  | g :: gs => allRows g.parts ++ granuleRows gs

/-- The granule that `Split` builds from a batch of rows: `NewGranule` of the
part `NewPart` makes of the batch. -/
def batchGranule {S V : Type} (less : Row V → Row V → Bool) (schema : S)
    (b : List (Row V)) : Granule S V :=
  NewGranule less [{ schema := schema, rows := b, Cardinality := (b.length : Int) }]

/-- The granules `gs` with their parts as pointers, the parts allocated one
after the other from the address `a` on. -/
def refsFrom {S V : Type} : Nat → List (Granule S V) → List (GranuleRef V)
  | _, [] => []
  | a, g :: gs => { least := g.least, parts := [a] } :: refsFrom (a + 1) gs

/-- The parts of a list of granules, granule after granule. -/
def partsOf {S V : Type} : List (Granule S V) → List (Part S V)
  | [] => []
  | g :: gs => g.parts ++ partsOf gs

/-- The parts of a granule have one schema. -/
def SameSchema {S V : Type} (parts : List (Part S V)) : Prop :=
  ∀ p ∈ parts, ∀ q ∈ parts, p.schema = q.schema

instance {S V : Type} [DecidableEq S] (parts : List (Part S V)) :
    Decidable (SameSchema parts) := by
  unfold SameSchema; infer_instance

/-! ## Lemmas on the order and on `least` -/

theorem lexLess_order : RowOrder lexLess where
  irrefl := by intro a; simp [lexLess]
  trans := by
    intro a b c hab hbc
    simp only [lexLess, decide_eq_true_eq] at *
    exact lt_trans hab hbc
  negTrans := by
    intro a b c hab hbc
    simp only [lexLess, decide_eq_false_iff_not, not_lt] at *
    exact le_trans hbc hab

theorem foldl_keepLeast_spec {V : Type} {less : Row V → Row V → Bool} (ho : RowOrder less)
    (rs : List (Row V)) (m : Row V) :
    rs.foldl (keepLeast less) m ∈ m :: rs ∧
      ∀ x ∈ m :: rs, less x (rs.foldl (keepLeast less) m) = false := by
  induction rs generalizing m with
  | nil => simp [ho.irrefl]
  | cons r rs ih =>
    obtain ⟨hmem, hlow⟩ := ih (keepLeast less m r)
    simp only [List.foldl_cons]
    refine ⟨?_, ?_⟩
    · rcases List.mem_cons.1 hmem with h | h
      · rw [h]; unfold keepLeast; split <;> simp
      · exact List.mem_cons_of_mem _ (List.mem_cons_of_mem _ h)
    · have hk := hlow _ (List.mem_cons_self _ _)
      intro x hx
      rcases List.mem_cons.1 hx with h | h
      · subst h
        by_cases hr : less r x = true
        · simp only [keepLeast, hr, if_true] at hk
          cases hx2 : less x (List.foldl (keepLeast less) (keepLeast less x r) rs) with
          | false => rfl
          | true =>
            have := ho.trans _ _ _ hr hx2
            simp only [keepLeast, hr, if_true] at this
            rw [hk] at this; exact absurd this (by simp)
        · simp only [keepLeast, hr] at hk ⊢
          simpa using hk
      · rcases List.mem_cons.1 h with h2 | h2
        · subst h2
          by_cases hr : less x m = true
          · simp only [keepLeast, hr, if_true] at hk ⊢
            exact hk
          · simp only [keepLeast, hr] at hk ⊢
            simp only [Bool.not_eq_true] at hr
            exact ho.negTrans _ _ _ hr (by simpa using hk)
        · exact hlow _ (List.mem_cons_of_mem _ h2)

theorem firstRows_append {S V : Type} (ps qs : List (Part S V)) :
    firstRows (ps ++ qs) = firstRows ps ++ firstRows qs := by
  simp [firstRows, List.filterMap_append]

theorem newGranule_loop_succ {S V : Type} (less : Row V → Row V → Bool)
    (ps : List (Part S V)) (i : Nat) (g : Granule S V) :
    NewGranule.loop less (i + 1) ps g =
      { least := (firstRows ps).foldl (keepLeast less) g.least, parts := g.parts } := by
  induction ps generalizing i g with
  | nil => simp [NewGranule.loop, firstRows]
  | cons p ps ih =>
    cases hrows : p.rows with
    | nil =>
      simp [NewGranule.loop, Part.Iterator, PartIterator.Next, hrows, firstRows, ih]
    | cons r rs =>
      by_cases hl : less r g.least = true
      · simp [NewGranule.loop, Part.Iterator, PartIterator.Next, PartIterator.Values, hrows,
          firstRows, ih, keepLeast, hl]
      · simp [NewGranule.loop, Part.Iterator, PartIterator.Next, PartIterator.Values, hrows,
          firstRows, ih, keepLeast, hl]

/-- `NewGranule` when the first part has a first row `r`: the fold starts from `r`. -/
theorem newGranule_cons_of_rows {S V : Type} (less : Row V → Row V → Bool)
    (p : Part S V) (ps : List (Part S V)) (r : Row V) (rs : List (Row V))
    (hrows : p.rows = r :: rs) :
    NewGranule less (p :: ps) =
      { least := (firstRows ps).foldl (keepLeast less) r, parts := p :: ps } := by
  simp [NewGranule, NewGranule.loop, Part.Iterator, PartIterator.Next, PartIterator.Values,
    hrows, newGranule_loop_succ]

/-- `NewGranule` when the first part is empty: the fold starts from the zero row. -/
theorem newGranule_cons_of_empty {S V : Type} (less : Row V → Row V → Bool)
    (p : Part S V) (ps : List (Part S V)) (hrows : p.rows = []) :
    NewGranule less (p :: ps) =
      { least := (firstRows ps).foldl (keepLeast less) Row.zero, parts := p :: ps } := by
  simp [NewGranule, NewGranule.loop, Part.Iterator, PartIterator.Next, hrows,
    newGranule_loop_succ]

theorem newGranule_parts {S V : Type} (less : Row V → Row V → Bool) (ps : List (Part S V)) :
    (NewGranule less ps).parts = ps := by
  cases ps with
  | nil => simp [NewGranule, NewGranule.loop]
  | cons p ps =>
    cases hrows : p.rows with
    | nil => rw [newGranule_cons_of_empty less p ps hrows]
    | cons r rs => rw [newGranule_cons_of_rows less p ps r rs hrows]

theorem addPart_eq {S V : Type} (less : Row V → Row V → Bool) (g : Granule S V)
    (p : Part S V) :
    g.AddPart less p =
      { least := (firstRows [p]).foldl (keepLeast less) g.least, parts := g.parts ++ [p] } := by
  cases hrows : p.rows with
  | nil => simp [Granule.AddPart, Part.Iterator, PartIterator.Next, hrows, firstRows]
  | cons r rs =>
    by_cases hl : less r g.least = true
    · simp [Granule.AddPart, Part.Iterator, PartIterator.Next, PartIterator.Values, hrows,
        firstRows, keepLeast, hl]
    · simp [Granule.AddPart, Part.Iterator, PartIterator.Next, PartIterator.Values, hrows,
        firstRows, keepLeast, hl]

theorem foldl_addPart_eq {S V : Type} (less : Row V → Row V → Bool) (qs : List (Part S V))
    (g : Granule S V) :
    qs.foldl (Granule.AddPart less) g =
      { least := (firstRows qs).foldl (keepLeast less) g.least, parts := g.parts ++ qs } := by
  induction qs generalizing g with
  | nil => simp [firstRows]
  | cons q qs ih =>
    rw [List.foldl_cons, ih, addPart_eq]
    have : firstRows (q :: qs) = firstRows [q] ++ firstRows qs := firstRows_append [q] qs
    simp [this, List.foldl_append]

theorem not_less_of_firstRows {S V : Type} {less : Row V → Row V → Bool} (ho : RowOrder less)
    (parts : List (Part S V)) (hs : ∀ p ∈ parts, Sorted less p.rows) (m : Row V)
    (hm : ∀ r ∈ firstRows parts, less r m = false) :
    ∀ r ∈ allRows parts, less r m = false := by
  induction parts with
  | nil => simp [allRows]
  | cons p ps ih =>
    have hps : ∀ r ∈ allRows ps, less r m = false := by
      apply ih (fun q hq => hs q (List.mem_cons_of_mem _ hq))
      intro r hr
      apply hm
      have := firstRows_append [p] ps
      simp only [List.singleton_append] at this
      rw [this]; exact List.mem_append_right _ hr
    have hsp := hs p (List.mem_cons_self _ _)
    intro r hr
    simp only [allRows, List.mem_append] at hr
    rcases hr with hr | hr
    · cases hrows : p.rows with
      | nil => rw [hrows] at hr; simp at hr
      | cons f tl =>
        have hf : less f m = false := by
          apply hm; simp [firstRows, hrows]
        rw [hrows] at hr hsp
        rcases List.mem_cons.1 hr with h | h
        · rw [h]; exact hf
        · have : less r f = false := (List.pairwise_cons.1 hsp).1 r h
          exact ho.negTrans _ _ _ this hf
    · exact hps r hr

theorem wrapInt_of_range (x : Int) (h1 : MinInt ≤ x) (h2 : x ≤ MaxInt) : wrapInt x = x := by
  unfold wrapInt MinInt MaxInt at *
  omega

theorem wrapInt_add_left (a b : Int) : wrapInt (wrapInt a + b) = wrapInt (a + b) := by
  unfold wrapInt
  omega

theorem wrapInt_natCast (k : Nat) (h : (k : Int) ≤ MaxInt) : wrapInt (k : Int) = (k : Int) :=
  wrapInt_of_range _ (by unfold MinInt; omega) h

theorem foldl_cardinality {S V : Type} (ps : List (Part S V)) (a : Int) :
    ps.foldl (fun res p => wrapInt (res + p.Cardinality)) (wrapInt a)
      = wrapInt (a + (ps.map Part.Cardinality).sum) := by
  induction ps generalizing a with
  | nil => simp
  | cons p ps ih =>
    simp only [List.foldl_cons, List.map_cons, List.sum_cons, wrapInt_add_left, ih, add_assoc]

/-- What `Cardinality()` returns: the sum of the fields reduced to `int`. -/
theorem cardinality_eq_wrap {S V : Type} (g : Granule S V) :
    (g.Cardinality).1 = wrapInt ((g.parts.map Part.Cardinality).sum) := by
  have h := foldl_cardinality g.parts 0
  have h0 : wrapInt 0 = 0 := by decide
  rw [h0, zero_add] at h
  exact h

/-- The least of a granule built from parts led by a non-empty part and then
extended with `AddPart`: a first row that no first row is `Less` than. -/
theorem least_after_addParts {S V : Type} {less : Row V → Row V → Bool} (ho : RowOrder less)
    (ps qs : List (Part S V)) (hne : ps ≠ []) (hrows : ∀ p ∈ ps, p.rows ≠ []) :
    (qs.foldl (Granule.AddPart less) (NewGranule less ps)).parts = ps ++ qs ∧
      (qs.foldl (Granule.AddPart less) (NewGranule less ps)).least ∈ firstRows (ps ++ qs) ∧
      ∀ r ∈ firstRows (ps ++ qs),
        less r (qs.foldl (Granule.AddPart less) (NewGranule less ps)).least = false := by
  cases ps with
  | nil => exact absurd rfl hne
  | cons p ps =>
    cases hp : p.rows with
    | nil => exact absurd hp (hrows p (List.mem_cons_self _ _))
    | cons r rs =>
      rw [foldl_addPart_eq, newGranule_cons_of_rows less p ps r rs hp]
      have hfirst : firstRows (p :: ps ++ qs) = r :: (firstRows ps ++ firstRows qs) := by
        have h1 := firstRows_append (p :: ps) qs
        have h2 := firstRows_append [p] ps
        simp only [List.singleton_append] at h2
        rw [h1, h2]; simp [firstRows, hp]
      simp only [← List.foldl_append]
      rw [hfirst]
      exact ⟨trivial, foldl_keepLeast_spec ho _ r⟩

/-! ## Lemmas on merging and on draining an iterator -/

theorem mergeTwo_go_eq_merge {V : Type} (less : Row V → Row V → Bool) (fuel : Nat)
    (xs ys : List (Row V)) (h : xs.length + ys.length ≤ fuel) :
    mergeTwo.go less fuel xs ys = List.merge xs ys (fun a b => !less b a) := by
  induction fuel generalizing xs ys with
  | zero =>
    have hx : xs = [] := List.length_eq_zero.1 (by omega)
    have hy : ys = [] := List.length_eq_zero.1 (by omega)
    subst hx; subst hy; simp [mergeTwo.go]
  | succ k ih =>
    cases xs with
    | nil => simp [mergeTwo.go]
    | cons x xs =>
      cases ys with
      | nil => simp [mergeTwo.go]
      | cons y ys =>
        simp only [List.length_cons] at h
        rw [List.cons_merge_cons]
        by_cases hl : less y x = true
        · simp only [mergeTwo.go, hl, if_true, Bool.not_true]
          rw [ih (x :: xs) ys (by simp only [List.length_cons]; omega)]
          simp
        · simp only [Bool.not_eq_true] at hl
          simp only [mergeTwo.go, hl, Bool.not_false, if_true]
          rw [ih xs (y :: ys) (by simp only [List.length_cons]; omega)]
          simp

theorem mergeTwo_eq_merge {V : Type} (less : Row V → Row V → Bool) (xs ys : List (Row V)) :
    mergeTwo less xs ys = List.merge xs ys (fun a b => !less b a) :=
  mergeTwo_go_eq_merge less _ xs ys (Nat.le_refl _)

theorem mergeTwo_nil_right {V : Type} (less : Row V → Row V → Bool) (xs : List (Row V)) :
    mergeTwo less xs [] = xs := by
  rw [mergeTwo_eq_merge]; simp

theorem mergeTwo_sorted {V : Type} {less : Row V → Row V → Bool} (ho : RowOrder less)
    (xs ys : List (Row V)) (hx : Sorted less xs) (hy : Sorted less ys) :
    Sorted less (mergeTwo less xs ys) := by
  rw [mergeTwo_eq_merge]
  have key := @List.sorted_merge _ (fun a b => !less b a)
    (by
      intro a b c hab hbc
      simp only [Bool.not_eq_true', Bool.not_eq_true] at *
      exact ho.negTrans _ _ _ hbc hab)
    (by
      intro a b
      cases hba : less b a with
      | false => simp [hba]
      | true =>
        cases hab : less a b with
        | false => simp [hab]
        | true =>
          have := ho.trans _ _ _ hab hba
          rw [ho.irrefl] at this; exact absurd this (by simp))
    xs ys (by simpa [Sorted] using hx) (by simpa [Sorted] using hy)
  simpa [Sorted] using key

theorem mergeRows_sorted {V : Type} {less : Row V → Row V → Bool} (ho : RowOrder less)
    (rss : List (List (Row V))) (h : ∀ rs ∈ rss, Sorted less rs) :
    Sorted less (mergeRows less rss) := by
  induction rss with
  | nil => simp [mergeRows, Sorted]
  | cons rs rss ih =>
    exact mergeTwo_sorted ho _ _ (h rs (List.mem_cons_self _ _))
      (ih (fun r hr => h r (List.mem_cons_of_mem _ hr)))

theorem mergeRows_perm {S V : Type} (less : Row V → Row V → Bool) (parts : List (Part S V)) :
    (mergeRows less (parts.map Part.rows)).Perm (allRows parts) := by
  induction parts with
  | nil => simp [mergeRows, allRows]
  | cons p ps ih =>
    simp only [List.map_cons, mergeRows, allRows]
    rw [mergeTwo_eq_merge]
    exact (List.merge_perm_append _).trans (List.Perm.append_left _ ih)

theorem merge_ok {S V : Type} [DecidableEq S] [Inhabited S] (less : Row V → Row V → Bool)
    (parts : List (Part S V)) (hsch : SameSchema parts) :
    Merge less parts = .ok
      { schema := (parts.head?.map Part.schema).getD default,
        rows := mergeRows less (parts.map Part.rows),
        Cardinality := ((mergeRows less (parts.map Part.rows)).length : Int) } := by
  unfold Merge
  have hall : parts.all (fun q => decide (q.schema =
      (parts.head?.map Part.schema).getD default)) = true := by
    cases parts with
    | nil => simp
    | cons p ps =>
      simp only [List.all_eq_true, decide_eq_true_eq]
      intro q hq
      simpa using hsch q hq p (List.mem_cons_self _ _)
  simp only [hall, if_true]

theorem iterator_ok {S V : Type} [DecidableEq S] [Inhabited S] (less : Row V → Row V → Bool)
    (g : Granule S V) (hsch : SameSchema g.parts) :
    g.Iterator less = .ok
      ({ its := [{ pending := mergeRows less (g.parts.map Part.rows), current := Row.zero,
                   err := none }],
         currPartIndex := 0 },
       { least := g.least,
         parts := [{ schema := (g.parts.head?.map Part.schema).getD default,
                     rows := mergeRows less (g.parts.map Part.rows),
                     Cardinality := ((mergeRows less (g.parts.map Part.rows)).length : Int) }] }) := by
  simp [Granule.Iterator, merge_ok less g.parts hsch, Part.Iterator]

theorem drainLoop_single {V : Type} (pend : List (Row V)) (cur : Row V) (e : Option String)
    (fuel : Nat) (hfuel : pend.length < fuel) :
    ∃ gi, GranuleIterator.drainLoop fuel
        { its := [{ pending := pend, current := cur, err := e }], currPartIndex := 0 }
      = .ok (pend, gi) := by
  induction pend generalizing cur fuel with
  | nil =>
    cases fuel with
    | zero => simp at hfuel
    | succ k =>
      simp [GranuleIterator.drainLoop, GranuleIterator.Next, PartIterator.Next]
  | cons r rest ih =>
    cases fuel with
    | zero => simp at hfuel
    | succ k =>
      simp only [List.length_cons, Nat.add_lt_add_iff_right] at hfuel
      obtain ⟨gi, hgi⟩ := ih r k hfuel
      refine ⟨gi, ?_⟩
      simp [GranuleIterator.drainLoop, GranuleIterator.Next, PartIterator.Next,
        GranuleIterator.Row, PartIterator.Values, hgi]

theorem drain_single {V : Type} (pend : List (Row V)) (cur : Row V) (e : Option String) :
    ∃ gi, GranuleIterator.drain
        { its := [{ pending := pend, current := cur, err := e }], currPartIndex := 0 }
      = .ok (pend, gi) := by
  unfold GranuleIterator.drain
  exact drainLoop_single pend cur e _ (by simp)

theorem allRows_length_cardinality {S V : Type} (ps : List (Part S V))
    (hcard : ∀ p ∈ ps, p.Cardinality = (p.rows.length : Int)) :
    ((allRows ps).length : Int) = (ps.map Part.Cardinality).sum := by
  induction ps with
  | nil => simp [allRows]
  | cons p ps ih =>
    simp only [allRows, List.length_append, List.map_cons, List.sum_cons, Nat.cast_add]
    rw [ih (fun q hq => hcard q (List.mem_cons_of_mem _ hq)), hcard p (List.mem_cons_self _ _)]

/-! ## Lemmas on `Split` -/

theorem newPart_ok {S V : Type} (conforms : S → Row V → Bool) (less : Row V → Row V → Bool)
    (schema : S) (rows : List (Row V)) (hc : ∀ r ∈ rows, conforms schema r = true)
    (hs : Sorted less rows) :
    NewPart conforms less schema rows =
      .ok { schema := schema, rows := rows, Cardinality := (rows.length : Int) } := by
  unfold NewPart
  rw [if_pos]
  exact ⟨List.all_eq_true.2 hc, hs⟩

theorem split_loop_spec {S V : Type} (conforms : S → Row V → Bool)
    (less : Row V → Row V → Bool) (schema : S) (n : Nat) (pend : List (Row V)) :
    ∀ (fuel : Nat) (cur : Row V) (e : Option String) (rows : List (Row V))
      (granules : List (Granule S V)),
      pend.length < fuel → rows.length < n →
      (∀ r ∈ rows ++ pend, conforms schema r = true) → Sorted less (rows ++ pend) →
      ∃ (full : List (List (Row V))) (rem : List (Row V)),
        Granule.Split.loop conforms less schema (n : Int) fuel
            { pending := pend, current := cur, err := e } rows granules
          = .ok (rem, granules ++ full.map (batchGranule less schema)) ∧
        full.flatten ++ rem = rows ++ pend ∧ (∀ b ∈ full, b.length = n) ∧ rem.length < n := by
  induction pend with
  | nil =>
    intro fuel cur e rows granules hfuel hlen _ _
    cases fuel with
    | zero => simp at hfuel
    | succ k =>
      refine ⟨[], rows, ?_, by simp, by simp, hlen⟩
      simp [Granule.Split.loop, PartIterator.Next]
  | cons r rest ih =>
    intro fuel cur e rows granules hfuel hlen hconf hsorted
    cases fuel with
    | zero => simp at hfuel
    | succ k =>
      simp only [List.length_cons, Nat.add_lt_add_iff_right] at hfuel
      have happ : rows ++ r :: rest = (rows ++ [r]) ++ rest := by simp
      by_cases hfull : (rows ++ [r]).length = n
      · have hcast : (((rows ++ [r]).length : Nat) : Int) = (n : Int) := by rw [hfull]
        have hc1 : ∀ x ∈ rows ++ [r], conforms schema x = true := by
          intro x hx
          apply hconf; rw [happ]; exact List.mem_append_left _ hx
        have hs1 : Sorted less (rows ++ [r]) := by
          unfold Sorted at hsorted ⊢
          rw [happ] at hsorted
          exact (List.pairwise_append.1 hsorted).1
        have hs2 : Sorted less ([] ++ rest) := by
          unfold Sorted at hsorted ⊢
          rw [happ] at hsorted
          simpa using (List.pairwise_append.1 hsorted).2.1
        have hc2 : ∀ x ∈ [] ++ rest, conforms schema x = true := by
          intro x hx
          apply hconf; rw [happ]; exact List.mem_append_right _ (by simpa using hx)
        obtain ⟨full, rem, hloop, hflat, hall, hrem⟩ :=
          ih k r e [] (granules ++ [batchGranule less schema (rows ++ [r])]) hfuel
            (by simp only [List.length_nil]; omega) hc2 hs2
        refine ⟨(rows ++ [r]) :: full, rem, ?_, ?_, ?_, hrem⟩
        · rw [Granule.Split.loop]
          simp only [PartIterator.Next, PartIterator.Values, if_true]
          rw [if_pos hcast, newPart_ok conforms less schema _ hc1 hs1]
          simp only
          unfold batchGranule at hloop ⊢
          rw [hloop]
          simp
        · simp only [List.flatten_cons, List.append_assoc, hflat]
          simp
        · intro b hb
          rcases List.mem_cons.1 hb with h | h
          · rw [h]; exact hfull
          · exact hall b h
      · have hcast : ¬ ((((rows ++ [r]).length : Nat) : Int) = (n : Int)) := by
          intro h; exact hfull (by exact_mod_cast h)
        have hlen1 : (rows ++ [r]).length < n := by
          simp only [List.length_append, List.length_singleton] at hfull ⊢
          omega
        obtain ⟨full, rem, hloop, hflat, hall, hrem⟩ :=
          ih k r e (rows ++ [r]) granules hfuel hlen1
            (by rw [← happ]; exact hconf) (by rw [← happ]; exact hsorted)
        refine ⟨full, rem, ?_, by rw [hflat, happ], hall, hrem⟩
        rw [Granule.Split.loop]
        simp only [PartIterator.Next, PartIterator.Values, if_true]
        rw [if_neg hcast]
        exact hloop

theorem batchGranule_parts {S V : Type} (less : Row V → Row V → Bool) (schema : S)
    (b : List (Row V)) :
    (batchGranule less schema b).parts
      = [{ schema := schema, rows := b, Cardinality := (b.length : Int) }] :=
  newGranule_parts less _

theorem batchGranule_least {S V : Type} (less : Row V → Row V → Bool) (schema : S)
    (r : Row V) (rs : List (Row V)) :
    (batchGranule less schema (r :: rs)).least = r := by
  unfold batchGranule
  rw [newGranule_cons_of_rows less _ [] r rs rfl]
  simp [firstRows]

theorem allRows_batchGranule {S V : Type} (less : Row V → Row V → Bool) (schema : S)
    (b : List (Row V)) : allRows (batchGranule less schema b).parts = b := by
  simp [batchGranule_parts, allRows]

theorem granuleRows_map_batchGranule {S V : Type} (less : Row V → Row V → Bool) (schema : S)
    (bs : List (List (Row V))) :
    granuleRows (bs.map (batchGranule less schema)) = bs.flatten := by
  induction bs with
  | nil => simp [granuleRows]
  | cons b bs ih => simp [granuleRows, ih, allRows_batchGranule]

/-- What `Split(n)` returns on a granule with one buildable part, `n ≥ 1`, when
the two `make` calls return: the granules of consecutive batches of the rows,
all of `n` rows but possibly the last, none empty; the receiver is unchanged. -/
theorem split_spec {S V : Type} (lim : MakeLimits) (conforms : S → Row V → Bool)
    (less : Row V → Row V → Bool)
    (g : Granule S V) (p : Part S V) (n : Int) (hparts : g.parts = [p])
    (hb : p.Buildable conforms less) (hn : 1 ≤ n) (hfit : SplitFits lim p.Cardinality n) :
    ∃ (bs : List (List (Row V))),
      g.Split lim conforms less n = .ok (bs.map (batchGranule less p.schema), g) ∧
      bs.flatten = p.rows ∧ (∀ b ∈ bs, b ≠ [] ∧ (b.length : Int) ≤ n) ∧
      (∀ b ∈ bs.dropLast, (b.length : Int) = n) := by
  obtain ⟨m, rfl⟩ := Int.eq_ofNat_of_zero_le (by omega : 0 ≤ n)
  obtain ⟨hconf, hsorted⟩ := hb
  obtain ⟨⟨hc0, hc1⟩, -, hrows⟩ := hfit
  have hm : 1 ≤ m := by exact_mod_cast hn
  obtain ⟨full, rem, hloop, hflat, hall, hrem⟩ :=
    split_loop_spec conforms less p.schema m p.rows (p.rows.length + 1) Row.zero none [] []
      (by omega) (by simp only [List.length_nil]; omega) (by simpa using hconf)
      (by simpa using hsorted)
  simp only [List.nil_append] at hloop hflat
  have hsplit : g.Split lim conforms less (m : Int) =
      match Granule.Split.loop conforms less p.schema (m : Int) (p.rows.length + 1)
          p.Iterator [] [] with
      | .error e => .error e
      | .ok (rows, granules) =>
        if rows.length ≠ 0 then
          match NewPart conforms less p.schema rows with
          | .error _ => .error (.panicked "dun goofed")
          | .ok q => .ok (granules ++ [NewGranule less [q]], g)
        else .ok (granules, g) := by
    unfold Granule.Split
    rw [hparts]
    simp only [List.length_singleton, gt_iff_lt, lt_self_iff_false, if_false]
    rw [if_neg (by omega : ¬ ((m : Int) = 0)),
      if_neg (by omega : ¬ (splitCount p.Cardinality (m : Int) < 0 ∨
        lim.maxGranules < splitCount p.Cardinality (m : Int))),
      if_neg (by omega : ¬ ((m : Int) < 0 ∨ lim.maxRows < (m : Int)))]
  rw [hsplit]
  unfold Part.Iterator
  rw [hloop]
  simp only
  by_cases hr : rem.length = 0
  · have hrem0 : rem = [] := List.length_eq_zero.1 hr
    subst hrem0
    refine ⟨full, ?_, by simpa using hflat, ?_, ?_⟩
    · simp
    · intro b hb
      have := hall b hb
      refine ⟨?_, by rw [this]⟩
      intro hnil; rw [hnil] at this; simp at this; omega
    · intro b hb
      rw [hall b (List.mem_of_mem_dropLast hb)]
  · have hc : ∀ r ∈ rem, conforms p.schema r = true := by
      intro r hr2; apply hconf; rw [← hflat]; exact List.mem_append_right _ hr2
    have hs : Sorted less rem := by
      unfold Sorted at hsorted ⊢
      rw [← hflat] at hsorted
      exact (List.pairwise_append.1 hsorted).2.1
    refine ⟨full ++ [rem], ?_, by simpa using hflat, ?_, ?_⟩
    · rw [if_pos hr, newPart_ok conforms less p.schema rem hc hs]
      simp [batchGranule]
    · intro b hb
      rcases List.mem_append.1 hb with h | h
      · have := hall b h
        refine ⟨?_, by rw [this]⟩
        intro hnil; rw [hnil] at this; simp at this; omega
      · simp only [List.mem_singleton] at h
        subst h
        refine ⟨fun hnil => hr (by rw [hnil]; rfl), ?_⟩
        exact_mod_cast Nat.le_of_lt hrem
    · intro b hb
      rw [List.dropLast_concat] at hb
      rw [hall b hb]

theorem batchGranule_cardinality {S V : Type} (less : Row V → Row V → Bool) (schema : S)
    (b : List (Row V)) (hb : (b.length : Int) ≤ MaxInt) :
    ((batchGranule less schema b).Cardinality).1 = (b.length : Int) := by
  rw [cardinality_eq_wrap, batchGranule_parts]
  simp [wrapInt_natCast b.length hb]

theorem sum_cardinality_map_batchGranule {S V : Type} (less : Row V → Row V → Bool)
    (schema : S) (bs : List (List (Row V))) (hbs : ∀ b ∈ bs, (b.length : Int) ≤ MaxInt) :
    ((bs.map (batchGranule less schema)).map (fun h => (h.Cardinality).1)).sum
      = (bs.flatten.length : Int) := by
  induction bs with
  | nil => simp
  | cons b bs ih =>
    simp only [List.map_cons, List.sum_cons, ih (fun c hc => hbs c (List.mem_cons_of_mem _ hc)),
      batchGranule_cardinality less schema b (hbs b (List.mem_cons_self _ _)),
      List.flatten_cons, List.length_append, Nat.cast_add]

theorem length_flatten_of_full {α : Type} (bs : List (List α)) (m : Nat)
    (h : ∀ b ∈ bs, b.length = m) : bs.flatten.length = bs.length * m := by
  induction bs with
  | nil => simp
  | cons b bs ih =>
    simp only [List.flatten_cons, List.length_append, List.length_cons]
    rw [ih (fun c hc => h c (List.mem_cons_of_mem _ hc)), h b (List.mem_cons_self _ _)]
    ring

theorem ceil_of_batches (k m l : Nat) (hl : 1 ≤ l) (hlm : l ≤ m) :
    ⌈((k * m + l : Nat) : ℚ) / (m : ℚ)⌉ = ((k + 1 : Nat) : Int) := by
  have hm : (0 : ℚ) < (m : ℚ) := by exact_mod_cast (by omega : 0 < m)
  rw [Int.ceil_eq_iff]
  constructor
  · rw [lt_div_iff₀ hm]
    push_cast
    have : (1 : ℚ) ≤ (l : ℚ) := by exact_mod_cast hl
    linarith
  · rw [div_le_iff₀ hm]
    push_cast
    have : (l : ℚ) ≤ (m : ℚ) := by exact_mod_cast hlm
    linarith

/-- The number of batches is the rounded-up quotient of the number of rows. -/
theorem length_batches_eq_ceil {α : Type} (bs : List (List α)) (m : Nat)
    (hne : ∀ b ∈ bs, b ≠ [] ∧ b.length ≤ m) (hfull : ∀ b ∈ bs.dropLast, b.length = m) :
    (bs.length : Int) = ⌈((bs.flatten.length : Nat) : ℚ) / (m : ℚ)⌉ := by
  rcases List.eq_nil_or_concat bs with h | ⟨init, last, h⟩
  · subst h; simp
  · rw [List.concat_eq_append] at h
    subst h
    rw [List.dropLast_concat] at hfull
    have hlast := hne last (by simp)
    have h1 : 1 ≤ last.length := by
      rcases Nat.eq_zero_or_pos last.length with h0 | h0
      · exact absurd (List.length_eq_zero.1 h0) hlast.1
      · exact h0
    have hlen : (init ++ [last]).flatten.length = init.length * m + last.length := by
      simp only [List.flatten_append, List.length_append, List.flatten_cons, List.flatten_nil,
        List.append_nil, length_flatten_of_full init m hfull]
    rw [hlen, ceil_of_batches init.length m last.length h1 hlast.2]
    simp

/-- The granules of consecutive non-empty batches of a sorted run are in order:
no row of an earlier batch has the later granule's least `Less` than it. -/
theorem batchGranules_ordered {S V : Type} (less : Row V → Row V → Bool) (schema : S)
    (bs : List (List (Row V))) (hne : ∀ b ∈ bs, b ≠ []) (hs : Sorted less bs.flatten) :
    (bs.map (batchGranule less schema)).Pairwise
      (fun a b => (∀ r ∈ allRows a.parts, less b.least r = false) ∧
        Granule.Less less b a = false) := by
  rw [List.pairwise_map]
  unfold Sorted at hs
  have hp := (List.pairwise_flatten.1 hs).2
  refine List.Pairwise.imp_of_mem ?_ hp
  intro a b ha hb hab
  obtain ⟨ra, rsa, hra⟩ := List.exists_cons_of_ne_nil (hne a ha)
  obtain ⟨rb, rsb, hrb⟩ := List.exists_cons_of_ne_nil (hne b hb)
  subst hra; subst hrb
  simp only [allRows_batchGranule, Granule.Less, batchGranule_least]
  exact ⟨fun r hr => hab r hr rb (List.mem_cons_self _ _),
    hab ra (List.mem_cons_self _ _) rb (List.mem_cons_self _ _)⟩

/-- The first row of the `i`-th batch is row `i * m` of the run, when every batch
but the last has `m` rows. -/
theorem getElem?_flatten_batches {α : Type} (m : Nat) (bs : List (List α)) :
    ∀ (i : Nat) (r : α) (rs : List α), (∀ b ∈ bs.dropLast, b.length = m) →
      bs[i]? = some (r :: rs) → bs.flatten[i * m]? = some r := by
  induction bs with
  | nil => intro i r rs _ h; simp at h
  | cons b bs ih =>
    intro i r rs hfull h
    cases i with
    | zero =>
      simp only [List.getElem?_cons_zero, Option.some.injEq] at h
      subst h; simp
    | succ k =>
      simp only [List.getElem?_cons_succ] at h
      have hne : bs ≠ [] := by
        intro hnil; rw [hnil] at h; simp at h
      obtain ⟨c, cs, hcs⟩ := List.exists_cons_of_ne_nil hne
      have hdrop : (b :: bs).dropLast = b :: bs.dropLast := by
        rw [hcs]; rfl
      rw [hdrop] at hfull
      have hb : b.length = m := hfull b (List.mem_cons_self _ _)
      have hrest := ih k r rs (fun c hc => hfull c (List.mem_cons_of_mem _ hc)) h
      rw [List.flatten_cons, List.getElem?_append_right (by rw [hb, Nat.succ_mul]; omega)]
      rw [hb, Nat.succ_mul, Nat.add_sub_cancel]
      exact hrest

/-! ## Lemmas on the end of an iteration -/

theorem iterator_its_length {S V : Type} [DecidableEq S] [Inhabited S]
    (less : Row V → Row V → Bool) (g g1 : Granule S V) (gi : GranuleIterator V)
    (hit : g.Iterator less = .ok (gi, g1)) :
    gi.its.length = 1 ∧ gi.currPartIndex = 0 ∧ g1.least = g.least ∧ g1.parts.length = 1 := by
  unfold Granule.Iterator at hit
  cases hm : Merge less g.parts with
  | error e => rw [hm] at hit; simp at hit
  | ok p =>
    rw [hm] at hit
    simp only [Except.ok.injEq, Prod.mk.injEq] at hit
    obtain ⟨h1, h2⟩ := hit
    subst h1; subst h2
    simp

theorem next_its_length {V : Type} (gi gi1 : GranuleIterator V) (b : Bool)
    (h : gi.Next = .ok (b, gi1)) : gi1.its.length = gi.its.length := by
  unfold GranuleIterator.Next at h
  cases hi : gi.its[gi.currPartIndex]? with
  | none => rw [hi] at h; simp at h
  | some it =>
    rw [hi] at h
    simp only at h
    split at h
    · simp only [Except.ok.injEq, Prod.mk.injEq] at h
      rw [← h.2]; simp
    · split at h
      · simp only [Except.ok.injEq, Prod.mk.injEq] at h
        rw [← h.2]; simp
      · split at h
        · simp at h
        · simp only [Except.ok.injEq, Prod.mk.injEq] at h
          rw [← h.2]; simp

/-- With a single part iterator, `Next` returns false only with the part index
moved past the iterator, where `Err` finds nothing to ask. -/
theorem err_after_next_false {V : Type} (gi gi1 : GranuleIterator V)
    (hlen : gi.its.length = 1) (h : gi.Next = .ok (false, gi1)) :
    gi1.Err = .error .indexOutOfRange := by
  obtain ⟨its, idx⟩ := gi
  simp only at hlen
  obtain ⟨it, rfl⟩ := List.length_eq_one.1 hlen
  cases idx with
  | succ k => simp [GranuleIterator.Next] at h
  | zero =>
    cases hp : it.pending with
    | cons r rest => simp [GranuleIterator.Next, PartIterator.Next, hp] at h
    | nil =>
      simp only [GranuleIterator.Next, PartIterator.Next, hp, List.getElem?_cons_zero,
        List.set_cons_zero, List.length_singleton, zero_add, ge_iff_le, le_refl, if_true,
        Except.ok.injEq, Prod.mk.injEq, true_and] at h
      simp at h
      rw [← h]
      simp [GranuleIterator.Err]

theorem err_after_drainLoop {V : Type} (fuel : Nat) :
    ∀ (gi gi1 : GranuleIterator V) (rows : List (Row V)), gi.its.length = 1 →
      GranuleIterator.drainLoop fuel gi = .ok (rows, gi1) →
      gi1.Err = .error .indexOutOfRange := by
  induction fuel with
  | zero => intro gi gi1 rows _ h; simp [GranuleIterator.drainLoop] at h
  | succ k ih =>
    intro gi gi1 rows hlen h
    rw [GranuleIterator.drainLoop] at h
    cases hn : gi.Next with
    | error e => rw [hn] at h; simp at h
    | ok res =>
      obtain ⟨b, gj⟩ := res
      rw [hn] at h
      cases b with
      | false =>
        simp only [Except.ok.injEq, Prod.mk.injEq] at h
        rw [← h.2]
        exact err_after_next_false gi gj hlen hn
      | true =>
        simp only at h
        cases hr : gj.Row with
        | error e => rw [hr] at h; simp at h
        | ok r =>
          rw [hr] at h
          simp only at h
          cases hd : GranuleIterator.drainLoop k gj with
          | error e => rw [hd] at h; simp at h
          | ok res2 =>
            obtain ⟨rs, gk⟩ := res2
            rw [hd] at h
            simp only [Except.ok.injEq, Prod.mk.injEq] at h
            rw [← h.2]
            exact ih gj gk rs (by rw [next_its_length gi gj true hn]; exact hlen) hd

/-! ## Lemmas on the failures of `Split` and on `least` after a merge -/

theorem split_no_parts {S V : Type} (lim : MakeLimits) (conforms : S → Row V → Bool)
    (less : Row V → Row V → Bool) (g : Granule S V) (n : Int) (hparts : g.parts = []) :
    g.Split lim conforms less n = .error .indexOutOfRange := by
  unfold Granule.Split
  rw [hparts]
  simp

theorem split_zero {S V : Type} (lim : MakeLimits) (conforms : S → Row V → Bool)
    (less : Row V → Row V → Bool) (g : Granule S V) (p : Part S V) (hparts : g.parts = [p]) :
    g.Split lim conforms less 0 = .error .divideByZero := by
  unfold Granule.Split
  rw [hparts]
  simp

/-- With one part and `n ≠ 0`, `Split(n)` fails at `make` when the count or `n`
is not a capacity that `make` accepts. -/
theorem split_capacity {S V : Type} (lim : MakeLimits) (conforms : S → Row V → Bool)
    (less : Row V → Row V → Bool) (g : Granule S V) (p : Part S V) (n : Int)
    (hparts : g.parts = [p]) (hn : n ≠ 0) (hfit : ¬ SplitFits lim p.Cardinality n) :
    g.Split lim conforms less n = .error .capOutOfRange := by
  unfold Granule.Split
  rw [hparts]
  simp only [List.length_singleton, gt_iff_lt, lt_self_iff_false, if_false]
  rw [if_neg hn]
  unfold SplitFits at hfit
  by_cases hc : splitCount p.Cardinality n < 0 ∨ lim.maxGranules < splitCount p.Cardinality n
  · simp only [hc, if_true]
  · simp only [hc, if_false]
    rw [if_pos (by omega)]

theorem firstRows_subset_allRows {S V : Type} (parts : List (Part S V)) :
    ∀ r ∈ firstRows parts, r ∈ allRows parts := by
  induction parts with
  | nil => intro r hr; simp [firstRows] at hr
  | cons p ps ih =>
    intro r hr
    have hsplit := firstRows_append [p] ps
    simp only [List.singleton_append] at hsplit
    rw [hsplit] at hr
    simp only [allRows, List.mem_append]
    rcases List.mem_append.1 hr with h | h
    · left
      cases hrows : p.rows with
      | nil => simp [firstRows, hrows] at h
      | cons f tl =>
        simp only [firstRows, List.filterMap_cons, hrows, List.head?_cons,
          List.filterMap_nil, List.mem_singleton] at h
        rw [h]; exact List.mem_cons_self _ _
    · right; exact ih r h

/-- When `NewGranule` receives at least one part and all parts are non-empty,
sorted and of one schema, the first row that `Iterator()` yields and `least` are
equivalent under `Row.Less`, and `Iterator()` leaves `least` as it was. -/
theorem least_equiv_first_row {S V : Type} [DecidableEq S] [Inhabited S]
    (less : Row V → Row V → Bool) (ho : RowOrder less) (ps qs : List (Part S V))
    (hne : ps ≠ []) (hrows : ∀ p ∈ ps, p.rows ≠ [])
    (hs : ∀ p ∈ ps ++ qs, Sorted less p.rows) (hsch : SameSchema (ps ++ qs)) :
    ∃ gi g1 r rs gi1,
      (qs.foldl (Granule.AddPart less) (NewGranule less ps)).Iterator less = .ok (gi, g1) ∧
      g1.least = (qs.foldl (Granule.AddPart less) (NewGranule less ps)).least ∧
      gi.drain = .ok (r :: rs, gi1) ∧
      less r (qs.foldl (Granule.AddPart less) (NewGranule less ps)).least = false ∧
      less (qs.foldl (Granule.AddPart less) (NewGranule less ps)).least r = false := by
  obtain ⟨hparts, hmem, hfirst⟩ := least_after_addParts ho ps qs hne hrows
  have hlow := not_less_of_firstRows ho (ps ++ qs) hs _ hfirst
  generalize qs.foldl (Granule.AddPart less) (NewGranule less ps) = g at hparts hmem hfirst hlow
  have hperm := mergeRows_perm less g.parts
  have hsorted : Sorted less (mergeRows less (g.parts.map Part.rows)) := by
    apply mergeRows_sorted ho
    intro rs hrs
    obtain ⟨p, hp, rfl⟩ := List.mem_map.1 hrs
    exact hs p (by rw [← hparts]; exact hp)
  have hin : g.least ∈ mergeRows less (g.parts.map Part.rows) := by
    rw [hperm.mem_iff, hparts]
    exact firstRows_subset_allRows _ _ hmem
  cases hm : mergeRows less (g.parts.map Part.rows) with
  | nil => rw [hm] at hin; simp at hin
  | cons r rs =>
    obtain ⟨gi1, hd⟩ := drain_single (mergeRows less (g.parts.map Part.rows)) Row.zero none
    rw [hm] at hd hin hsorted
    have hr : r ∈ allRows (ps ++ qs) := by
      rw [← hparts, ← hperm.mem_iff, hm]; exact List.mem_cons_self _ _
    refine ⟨_, _, r, rs, gi1, iterator_ok less g (by rw [hparts]; exact hsch), rfl, ?_,
      hlow r hr, ?_⟩
    · rw [hm]; exact hd
    · rcases List.mem_cons.1 hin with h | h
      · rw [h]; exact ho.irrefl r
      · exact (List.pairwise_cons.1 hsorted).1 _ h

/-! ## Lemmas on draining several part iterators -/

theorem getElem?_append_cons_length {α : Type} (done : List α) (x : α) (rest : List α) :
    (done ++ x :: rest)[done.length]? = some x := by
  rw [List.getElem?_append_right (Nat.le_refl _)]
  simp

theorem getElem?_append_cons_succ {α : Type} (done : List α) (x y : α) (rest : List α) :
    (done ++ x :: y :: rest)[done.length + 1]? = some y := by
  rw [List.getElem?_append_right (by omega)]
  simp

theorem set_append_cons_length {α : Type} (done : List α) (x y : α) (rest : List α) :
    (done ++ x :: rest).set done.length y = done ++ y :: rest := by
  induction done with
  | nil => rfl
  | cons d ds ih => simp [ih]

theorem set_append_cons_succ {α : Type} (done : List α) (x y z : α) (rest : List α) :
    (done ++ x :: y :: rest).set (done.length + 1) z = done ++ x :: z :: rest := by
  induction done with
  | nil => rfl
  | cons d ds ih => simp [ih]

theorem next_of_pending {V : Type} (done rest : List (PartIterator V)) (r : Row V)
    (rs : List (Row V)) (c : Row V) (e : Option String) :
    GranuleIterator.Next
        { its := done ++ { pending := r :: rs, current := c, err := e } :: rest,
          currPartIndex := done.length }
      = .ok (true, { its := done ++ { pending := rs, current := r, err := e } :: rest,
                     currPartIndex := done.length }) := by
  simp only [GranuleIterator.Next, getElem?_append_cons_length, PartIterator.Next,
    set_append_cons_length, if_true]

theorem next_at_last {V : Type} (done : List (PartIterator V)) (c : Row V)
    (e : Option String) :
    GranuleIterator.Next
        { its := done ++ [{ pending := [], current := c, err := e }],
          currPartIndex := done.length }
      = .ok (false, { its := done ++ [{ pending := [], current := c, err := e }],
                      currPartIndex := done.length + 1 }) := by
  simp only [GranuleIterator.Next, getElem?_append_cons_length, PartIterator.Next,
    set_append_cons_length]
  rw [if_neg (by simp), if_pos (by simp)]

theorem next_to_pending {V : Type} (done rest : List (PartIterator V)) (c yc : Row V)
    (e ye : Option String) (r : Row V) (rs : List (Row V)) :
    GranuleIterator.Next
        { its := done ++ { pending := [], current := c, err := e }
            :: { pending := r :: rs, current := yc, err := ye } :: rest,
          currPartIndex := done.length }
      = .ok (true, { its := done ++ { pending := [], current := c, err := e }
                        :: { pending := rs, current := r, err := ye } :: rest,
                     currPartIndex := done.length + 1 }) := by
  simp only [GranuleIterator.Next, getElem?_append_cons_length, PartIterator.Next,
    set_append_cons_length]
  rw [if_neg (by simp), if_neg (by simp)]
  simp only [getElem?_append_cons_succ, set_append_cons_succ]

theorem next_to_empty {V : Type} (done rest : List (PartIterator V)) (c xc : Row V)
    (e xe : Option String) :
    GranuleIterator.Next
        { its := done ++ { pending := [], current := c, err := e }
            :: { pending := [], current := xc, err := xe } :: rest,
          currPartIndex := done.length }
      = .ok (false, { its := done ++ { pending := [], current := c, err := e }
                        :: { pending := [], current := xc, err := xe } :: rest,
                      currPartIndex := done.length + 1 }) := by
  simp only [GranuleIterator.Next, getElem?_append_cons_length, PartIterator.Next,
    set_append_cons_length]
  rw [if_neg (by simp), if_neg (by simp)]
  simp only [getElem?_append_cons_succ, set_append_cons_succ]

theorem row_at_index {V : Type} (done rest : List (PartIterator V)) (cur : PartIterator V) :
    GranuleIterator.Row { its := done ++ cur :: rest, currPartIndex := done.length }
      = .ok cur.current := by
  simp only [GranuleIterator.Row, getElem?_append_cons_length, PartIterator.Values]

/-- Draining from the part iterator `cur` at the part index, when the non-empty
part iterators `ne` after it come before the empty ones `em`: the rows read are
the pending rows of `cur` and then of `ne`, and every part iterator from the
part index on is left exhausted. -/
theorem drainLoop_sequence {V : Type} (fuel : Nat) :
    ∀ (done : List (PartIterator V)) (cur : PartIterator V) (ne em : List (PartIterator V)),
      (∀ it ∈ ne, it.pending ≠ []) → (∀ it ∈ em, it.pending = []) →
      cur.pending.length + (ne.map (fun it => it.pending)).flatten.length < fuel →
      ∃ gi1 tail,
        GranuleIterator.drainLoop fuel
            { its := done ++ cur :: (ne ++ em), currPartIndex := done.length }
          = .ok (cur.pending ++ (ne.map (fun it => it.pending)).flatten, gi1) ∧
        gi1.its = done ++ tail ∧ tail.length = (cur :: (ne ++ em)).length ∧
        ∀ it ∈ tail, it.pending = [] := by
  induction fuel with
  | zero => intro done cur ne em _ _ h; omega
  | succ k ih =>
    intro done cur ne em hne hem hfuel
    obtain ⟨pend, c, e⟩ := cur
    cases pend with
    | cons r rs =>
      simp only [List.length_cons] at hfuel
      obtain ⟨gi1, tail, hd, hits, hlen, hex⟩ :=
        ih done { pending := rs, current := r, err := e } ne em hne hem (by simp only; omega)
      refine ⟨gi1, tail, ?_, hits, by simpa using hlen, hex⟩
      rw [GranuleIterator.drainLoop, next_of_pending]
      simp only [row_at_index, hd, List.cons_append]
    | nil =>
      cases ne with
      | nil =>
        cases em with
        | nil =>
          refine ⟨{ its := done ++ [{ pending := [], current := c, err := e }],
                    currPartIndex := done.length + 1 },
            [{ pending := [], current := c, err := e }], ?_, rfl, by simp, by simp⟩
          rw [GranuleIterator.drainLoop]
          simp only [List.append_nil, next_at_last, List.map_nil, List.flatten_nil]
        | cons x em1 =>
          obtain ⟨xp, xc, xe⟩ := x
          have hx : xp = [] := hem _ (List.mem_cons_self _ _)
          subst hx
          refine ⟨{ its := done ++ { pending := [], current := c, err := e }
                      :: { pending := [], current := xc, err := xe } :: em1,
                    currPartIndex := done.length + 1 },
            { pending := [], current := c, err := e }
              :: { pending := [], current := xc, err := xe } :: em1, ?_, rfl, by simp, ?_⟩
          · rw [GranuleIterator.drainLoop]
            simp only [List.nil_append, next_to_empty, List.map_nil, List.flatten_nil,
              List.append_nil]
          · intro it hit
            rcases List.mem_cons.1 hit with h | h
            · rw [h]
            · rcases List.mem_cons.1 h with h2 | h2
              · rw [h2]
              · exact hem it (List.mem_cons_of_mem _ h2)
      | cons y ne1 =>
        obtain ⟨yp, yc, ye⟩ := y
        cases yp with
        | nil => exact absurd rfl (hne _ (List.mem_cons_self _ _))
        | cons r rs =>
          simp only [List.length_nil, zero_add, List.map_cons, List.flatten_cons,
            List.length_append, List.length_cons] at hfuel
          obtain ⟨gi1, tail, hd, hits, hlen, hex⟩ :=
            ih (done ++ [{ pending := [], current := c, err := e }])
              { pending := rs, current := r, err := ye } ne1 em
              (fun it hit => hne it (List.mem_cons_of_mem _ hit)) hem (by simp only; omega)
          have hrow := row_at_index (done ++ [{ pending := [], current := c, err := e }])
            (ne1 ++ em) { pending := rs, current := r, err := ye }
          simp only [List.append_assoc, List.singleton_append, List.length_append,
            List.length_singleton] at hd hrow
          refine ⟨gi1, { pending := [], current := c, err := e } :: tail, ?_, ?_, ?_, ?_⟩
          · rw [GranuleIterator.drainLoop]
            simp only [List.cons_append, next_to_pending, hrow, hd, List.nil_append,
              List.map_cons, List.flatten_cons]
          · rw [hits]; simp
          · simp only [List.length_cons, List.cons_append] at hlen ⊢
            omega
          · intro it hit
            rcases List.mem_cons.1 hit with h | h
            · rw [h]
            · exact hex it h

/-! ## Lemmas on `Split` with parts as pointers -/

theorem split_loop_acc {S V : Type} (conforms : S → Row V → Bool)
    (less : Row V → Row V → Bool) (schema : S) (n : Int) (fuel : Nat) :
    ∀ (it : PartIterator V) (rows : List (Row V)) (granules : List (Granule S V)),
      Granule.Split.loop conforms less schema n fuel it rows granules =
        match Granule.Split.loop conforms less schema n fuel it rows [] with
        | .error e => .error e
        | .ok (rem, new) => .ok (rem, granules ++ new) := by
  induction fuel with
  | zero => intro it rows granules; simp [Granule.Split.loop]
  | succ k ih =>
    intro it rows granules
    rw [Granule.Split.loop, Granule.Split.loop]
    cases hnext : it.Next with
    | mk ok it1 =>
      cases ok with
      | false => simp
      | true =>
        simp only [if_true]
        split
        · cases hp : NewPart conforms less schema (rows ++ [{ Values := it1.Values }]) with
          | error e => simp
          | ok q =>
            simp only [List.nil_append]
            rw [ih it1 [] (granules ++ [NewGranule less [q]]), ih it1 [] [NewGranule less [q]]]
            cases Granule.Split.loop conforms less schema n k it1 [] [] with
            | error e => simp
            | ok res => simp
        · exact ih it1 _ granules

theorem split_loop_single {S V : Type} (conforms : S → Row V → Bool)
    (less : Row V → Row V → Bool) (schema : S) (n : Int) (fuel : Nat) :
    ∀ (it : PartIterator V) (rows rem : List (Row V)) (new : List (Granule S V)),
      Granule.Split.loop conforms less schema n fuel it rows [] = .ok (rem, new) →
      ∀ h ∈ new, h.parts.length = 1 := by
  induction fuel with
  | zero => intro it rows rem new h; simp [Granule.Split.loop] at h
  | succ k ih =>
    intro it rows rem new h
    rw [Granule.Split.loop] at h
    cases hnext : it.Next with
    | mk ok it1 =>
      rw [hnext] at h
      cases ok with
      | false =>
        simp only [Bool.false_eq_true, if_false, Except.ok.injEq, Prod.mk.injEq] at h
        rw [← h.2]; simp
      | true =>
        simp only [if_true] at h
        split at h
        · cases hp : NewPart conforms less schema (rows ++ [{ Values := it1.Values }]) with
          | error e => rw [hp] at h; simp at h
          | ok q =>
            rw [hp] at h
            simp only [List.nil_append] at h
            rw [split_loop_acc] at h
            cases hrest : Granule.Split.loop conforms less schema n k it1 [] [] with
            | error e => rw [hrest] at h; simp at h
            | ok res =>
              obtain ⟨rem1, new1⟩ := res
              rw [hrest] at h
              simp only [Except.ok.injEq, Prod.mk.injEq] at h
              intro g hg
              rw [← h.2] at hg
              rcases List.mem_append.1 hg with hg1 | hg1
              · simp only [List.mem_singleton] at hg1
                rw [hg1, newGranule_parts]; rfl
              · exact ih it1 [] rem1 new1 hrest g hg1
        · exact ih it1 _ rem new h

theorem refsFrom_append {S V : Type} (a : Nat) (xs ys : List (Granule S V)) :
    (refsFrom a (xs ++ ys) : List (GranuleRef V))
      = refsFrom a xs ++ refsFrom (a + xs.length) ys := by
  induction xs generalizing a with
  | nil => simp [refsFrom]
  | cons x xs ih =>
    have harith : a + 1 + xs.length = a + (xs.length + 1) := by omega
    rw [List.cons_append, refsFrom, refsFrom, ih (a + 1), harith, List.length_cons,
      List.cons_append]

theorem partsOf_append {S V : Type} (xs ys : List (Granule S V)) :
    partsOf (xs ++ ys) = partsOf xs ++ partsOf ys := by
  induction xs with
  | nil => simp [partsOf]
  | cons x xs ih => simp [partsOf, ih]

theorem partsOf_length {S V : Type} (gs : List (Granule S V))
    (h : ∀ g ∈ gs, g.parts.length = 1) : (partsOf gs).length = gs.length := by
  induction gs with
  | nil => simp [partsOf]
  | cons g gs ih =>
    simp only [partsOf, List.length_append, List.length_cons,
      h g (List.mem_cons_self _ _), ih (fun x hx => h x (List.mem_cons_of_mem _ hx))]
    omega

theorem mem_refsFrom {S V : Type} (gs : List (Granule S V)) :
    ∀ (a : Nat) (h : GranuleRef V), h ∈ (refsFrom a gs : List (GranuleRef V)) →
      ∃ b, h.parts = [b] ∧ a ≤ b ∧ b < a + gs.length := by
  induction gs with
  | nil => intro a h hh; simp [refsFrom] at hh
  | cons g gs ih =>
    intro a h hh
    simp only [refsFrom, List.mem_cons] at hh
    rcases hh with hh | hh
    · exact ⟨a, by rw [hh], Nat.le_refl _, by simp⟩
    · obtain ⟨b, hb, h1, h2⟩ := ih (a + 1) h hh
      exact ⟨b, hb, by omega, by simp only [List.length_cons]; omega⟩

theorem newGranuleRef_single {S V : Type} (less : Row V → Row V → Bool)
    (store : List (Part S V)) (a : Nat) (p : Part S V) (ha : store[a]? = some p) :
    NewGranuleRef less store [a] = .ok { least := (NewGranule less [p]).least, parts := [a] } := by
  cases hrows : p.rows with
  | nil =>
    simp [NewGranuleRef, NewGranuleRef.loop, ha, NewGranule, NewGranule.loop, Part.Iterator,
      PartIterator.Next, hrows]
  | cons r rs =>
    simp [NewGranuleRef, NewGranuleRef.loop, ha, NewGranule, NewGranule.loop, Part.Iterator,
      PartIterator.Next, PartIterator.Values, hrows]

theorem splitRef_loop_eq {S V : Type} (conforms : S → Row V → Bool)
    (less : Row V → Row V → Bool) (schema : S) (n : Int) (fuel : Nat) :
    ∀ (it : PartIterator V) (rows : List (Row V)) (granules : List (GranuleRef V))
      (store : List (Part S V)),
      GranuleRef.Split.loop conforms less schema n fuel it rows granules store =
        match Granule.Split.loop conforms less schema n fuel it rows [] with
        | .error e => .error e
        | .ok (rem, new) =>
          .ok (rem, granules ++ refsFrom store.length new, store ++ partsOf new) := by
  induction fuel with
  | zero => intro it rows granules store; simp [Granule.Split.loop, GranuleRef.Split.loop]
  | succ k ih =>
    intro it rows granules store
    rw [Granule.Split.loop, GranuleRef.Split.loop]
    cases hnext : it.Next with
    | mk ok it1 =>
      cases ok with
      | false => simp [refsFrom, partsOf]
      | true =>
        simp only [if_true]
        split
        · unfold NewPartRef
          cases hp : NewPart conforms less schema (rows ++ [{ Values := it1.Values }]) with
          | error e => simp
          | ok q =>
            simp only [List.nil_append]
            rw [newGranuleRef_single less (store ++ [q]) store.length q (by simp)]
            simp only
            rw [ih it1 [] _ (store ++ [q]),
              split_loop_acc conforms less schema n k it1 [] [NewGranule less [q]]]
            cases Granule.Split.loop conforms less schema n k it1 [] [] with
            | error e => simp
            | ok res =>
              simp [refsFrom, partsOf, newGranule_parts]
        · exact ih it1 _ granules store

/-- What a completed `Split` on one part returns: the granules of the loop,
then possibly the granule of the remaining rows; the receiver is unchanged. -/
theorem split_ok_shape {S V : Type} (lim : MakeLimits) (conforms : S → Row V → Bool)
    (less : Row V → Row V → Bool) (g g1 : Granule S V) (p : Part S V) (n : Int)
    (gs : List (Granule S V)) (hparts : g.parts = [p])
    (h : g.Split lim conforms less n = .ok (gs, g1)) :
    g1 = g ∧ ∀ x ∈ gs, x.parts.length = 1 := by
  unfold Granule.Split at h
  rw [hparts] at h
  simp only [List.length_singleton, gt_iff_lt, lt_self_iff_false, if_false] at h
  split at h
  · simp at h
  · split at h
    · simp at h
    · split at h
      · simp at h
      · cases hl : Granule.Split.loop conforms less p.schema n (p.rows.length + 1)
            p.Iterator [] [] with
        | error e => rw [hl] at h; simp at h
        | ok res =>
          obtain ⟨rem, new⟩ := res
          rw [hl] at h
          have hnew := split_loop_single conforms less p.schema n _ _ _ _ _ hl
          simp only at h
          split at h
          · cases hq : NewPart conforms less p.schema rem with
            | error e => rw [hq] at h; simp at h
            | ok q =>
              rw [hq] at h
              simp only [Except.ok.injEq, Prod.mk.injEq] at h
              refine ⟨h.2.symm, ?_⟩
              intro x hx
              rw [← h.1] at hx
              rcases List.mem_append.1 hx with hx1 | hx1
              · exact hnew x hx1
              · simp only [List.mem_singleton] at hx1
                rw [hx1, newGranule_parts]; rfl
          · simp only [Except.ok.injEq, Prod.mk.injEq] at h
            refine ⟨h.2.symm, ?_⟩
            intro x hx
            rw [← h.1] at hx
            exact hnew x hx

/-- `Split` on pointers returns what `Split` returns on the part pointed to,
with the parts of the returned granules allocated at the end of the store. -/
theorem splitRef_eq {S V : Type} (lim : MakeLimits) (conforms : S → Row V → Bool)
    (less : Row V → Row V → Bool) (store : List (Part S V)) (g : GranuleRef V) (a : Nat)
    (p : Part S V) (n : Int) (hparts : g.parts = [a]) (ha : store[a]? = some p) :
    g.Split lim conforms less store n =
      match Granule.Split lim conforms less { least := g.least, parts := [p] } n with
      | .error e => .error e
      | .ok (gs, _) => .ok (refsFrom store.length gs, g, store ++ partsOf gs) := by
  unfold GranuleRef.Split Granule.Split
  rw [hparts]
  simp only [List.length_singleton, gt_iff_lt, lt_self_iff_false, if_false, ha]
  split
  · rfl
  · split
    · rfl
    · split
      · rfl
      · rw [splitRef_loop_eq]
        cases hl : Granule.Split.loop conforms less p.schema n (p.rows.length + 1)
            p.Iterator [] [] with
        | error e => rfl
        | ok res =>
          obtain ⟨rem, new⟩ := res
          have hnew := split_loop_single conforms less p.schema n _ _ _ _ _ hl
          simp only [List.nil_append]
          split
          · unfold NewPartRef
            cases hq : NewPart conforms less p.schema rem with
            | error e => rfl
            | ok q =>
              simp only
              rw [newGranuleRef_single less (store ++ partsOf new ++ [q])
                (store ++ partsOf new).length q
                (getElem?_append_cons_length (store ++ partsOf new) q [])]
              simp only [refsFrom_append, partsOf_append, refsFrom, partsOf, newGranule_parts,
                List.length_append, partsOf_length new hnew, List.append_nil,
                List.append_assoc]
          · rfl

theorem flatten_pending_of_empty {V : Type} (em : List (PartIterator V))
    (hem : ∀ it ∈ em, it.pending = []) : (em.map (fun it => it.pending)).flatten = [] := by
  induction em with
  | nil => rfl
  | cons x xs ih =>
    simp only [List.map_cons, List.flatten_cons, hem x (List.mem_cons_self _ _),
      ih (fun it hit => hem it (List.mem_cons_of_mem _ hit)), List.append_nil]

theorem length_flatten_pending_le {V : Type} (xs ys : List (PartIterator V)) :
    (xs.map (fun it => it.pending)).flatten.length
      ≤ ((xs ++ ys).map (fun it => it.pending.length)).sum := by
  induction xs with
  | nil => simp
  | cons x xs ih =>
    simp only [List.map_cons, List.flatten_cons, List.length_append, List.cons_append,
      List.sum_cons]
    omega

/-! ## The claims -/

/-- C1: for a non-empty list of non-empty sorted parts, the granule returned by
`NewGranule` holds these parts and its `least` is the minimum under `Row.Less`
of the first rows of the parts: it is one of the first rows, no first row is
`Less` than it, and hence no row of any part is `Less` than it. -/
theorem newGranule_least_minimum {S V : Type} (less : Row V → Row V → Bool)
    (ho : RowOrder less) (parts : List (Part S V)) (hne : parts ≠ [])
    (hrows : ∀ p ∈ parts, p.rows ≠ []) (hs : ∀ p ∈ parts, Sorted less p.rows) :
    (NewGranule less parts).parts = parts ∧
      (NewGranule less parts).least ∈ firstRows parts ∧
      (∀ r ∈ firstRows parts, less r (NewGranule less parts).least = false) ∧
      (∀ r ∈ allRows parts, less r (NewGranule less parts).least = false) := by
  have h := least_after_addParts ho parts [] hne hrows
  simp only [List.foldl_nil, List.append_nil] at h
  exact ⟨h.1, h.2.1, h.2.2, not_less_of_firstRows ho parts hs _ h.2.2⟩

/-- C1, the scenario of the specification: parts [3,7,9] and [1,5] give least 1. -/
theorem newGranule_least_minimum_witness :
    (NewGranule lexLess [intPart [3, 7, 9], intPart [1, 5]]).least = ⟨[1]⟩ ∧
      ((NewGranule lexLess [intPart [3, 7, 9], intPart [1, 5]]).parts
          = [intPart [3, 7, 9], intPart [1, 5]] ∧
        (NewGranule lexLess [intPart [3, 7, 9], intPart [1, 5]]).least
          ∈ firstRows [intPart [3, 7, 9], intPart [1, 5]] ∧
        (∀ r ∈ firstRows [intPart [3, 7, 9], intPart [1, 5]],
          lexLess r (NewGranule lexLess [intPart [3, 7, 9], intPart [1, 5]]).least = false) ∧
        (∀ r ∈ allRows [intPart [3, 7, 9], intPart [1, 5]],
          lexLess r (NewGranule lexLess [intPart [3, 7, 9], intPart [1, 5]]).least = false)) :=
  ⟨by decide,
    newGranule_least_minimum lexLess lexLess_order [intPart [3, 7, 9], intPart [1, 5]]
      (by decide) (by decide) (by decide)⟩

/-- C6 fails as stated: on the parts with the `Cardinality` fields `MaxInt` and
1 the sum of the fields is 2^63, and `Cardinality()` returns -2^63; adding the
part of cardinality 1 with `AddPart` takes `Cardinality()` from `MaxInt` to
`MinInt`. -/
theorem cardinality_wraps_around :
    ([({ schema := (), rows := [], Cardinality := 9223372036854775807 } : Part Unit Int),
        { schema := (), rows := [], Cardinality := 1 }].map Part.Cardinality).sum
      = 9223372036854775808 ∧
    ((NewGranule lexLess
        [({ schema := (), rows := [], Cardinality := 9223372036854775807 } : Part Unit Int),
          { schema := (), rows := [], Cardinality := 1 }]).Cardinality).1
      = -9223372036854775808 ∧
    ((NewGranule lexLess
        [({ schema := (), rows := [], Cardinality := 9223372036854775807 } : Part Unit Int)]
      ).Cardinality).1 = 9223372036854775807 ∧
    (((NewGranule lexLess
        [({ schema := (), rows := [], Cardinality := 9223372036854775807 } : Part Unit Int)]
      ).AddPart lexLess { schema := (), rows := [], Cardinality := 1 }).Cardinality).1
      = -9223372036854775808 := by
  decide

/-- C6, as amended: a granule built by `NewGranule` from `ps` and extended by
`AddPart` with each part of `qs` has `Cardinality()` equal to the sum of the
`Cardinality` fields of `ps ++ qs` reduced to `int` by wrap-around, hence equal
to that sum whenever the sum lies within `int` (0 without parts); `AddPart(p)`
changes `Cardinality()` to the wrapped sum of its value and `p.Cardinality`,
an increase by exactly `p.Cardinality` whenever that sum lies within `int`; and
`Cardinality()` leaves the granule as it was. -/
theorem cardinality_sum_of_parts {S V : Type} (less : Row V → Row V → Bool)
    (ps qs : List (Part S V)) (g : Granule S V) (p : Part S V) :
    ((qs.foldl (Granule.AddPart less) (NewGranule less ps)).Cardinality).1
        = wrapInt (((ps ++ qs).map Part.Cardinality).sum) ∧
      (MinInt ≤ ((ps ++ qs).map Part.Cardinality).sum →
        ((ps ++ qs).map Part.Cardinality).sum ≤ MaxInt →
        ((qs.foldl (Granule.AddPart less) (NewGranule less ps)).Cardinality).1
          = ((ps ++ qs).map Part.Cardinality).sum) ∧
      ((NewGranule less ([] : List (Part S V))).Cardinality).1 = 0 ∧
      ((g.AddPart less p).Cardinality).1 = wrapInt ((g.Cardinality).1 + p.Cardinality) ∧
      (MinInt ≤ (g.Cardinality).1 + p.Cardinality →
        (g.Cardinality).1 + p.Cardinality ≤ MaxInt →
        ((g.AddPart less p).Cardinality).1 = (g.Cardinality).1 + p.Cardinality) ∧
      (g.Cardinality).2 = g := by
  have hbuilt : ((qs.foldl (Granule.AddPart less) (NewGranule less ps)).Cardinality).1
      = wrapInt (((ps ++ qs).map Part.Cardinality).sum) := by
    rw [cardinality_eq_wrap, foldl_addPart_eq, newGranule_parts]
  have hadd : ((g.AddPart less p).Cardinality).1
      = wrapInt ((g.Cardinality).1 + p.Cardinality) := by
    rw [cardinality_eq_wrap, cardinality_eq_wrap, addPart_eq, wrapInt_add_left]
    simp
  refine ⟨hbuilt, ?_, ?_, hadd, ?_, rfl⟩
  · intro h1 h2
    rw [hbuilt, wrapInt_of_range _ h1 h2]
  · rw [cardinality_eq_wrap, newGranule_parts]
    simp only [List.map_nil, List.sum_nil]
    decide
  · intro h1 h2
    rw [hadd, wrapInt_of_range _ h1 h2]

/-- C7: for a granule built by `NewGranule` from a non-empty list of non-empty
sorted parts and then extended with `AddPart` by each of a list of sorted parts,
`least` is the minimum under `Row.Less` of the first rows of all parts now
contained: it is one of them, none of them is `Less` than it, and no row of any
contained part is `Less` than it. -/
theorem addPart_least_minimum {S V : Type} (less : Row V → Row V → Bool)
    (ho : RowOrder less) (ps qs : List (Part S V)) (hne : ps ≠ [])
    (hrows : ∀ p ∈ ps, p.rows ≠ []) (hs : ∀ p ∈ ps ++ qs, Sorted less p.rows) :
    (qs.foldl (Granule.AddPart less) (NewGranule less ps)).parts = ps ++ qs ∧
      (qs.foldl (Granule.AddPart less) (NewGranule less ps)).least ∈ firstRows (ps ++ qs) ∧
      (∀ r ∈ firstRows (ps ++ qs),
        less r (qs.foldl (Granule.AddPart less) (NewGranule less ps)).least = false) ∧
      (∀ r ∈ allRows (ps ++ qs),
        less r (qs.foldl (Granule.AddPart less) (NewGranule less ps)).least = false) := by
  have h := least_after_addParts ho ps qs hne hrows
  exact ⟨h.1, h.2.1, h.2.2, not_less_of_firstRows ho (ps ++ qs) hs _ h.2.2⟩

/-- C7 at parts [3,7,9] and [4], extended with [1,5], with an empty part and
with [2]: least is 1. -/
theorem addPart_least_minimum_witness :
    ([intPart [1, 5], intPart [], intPart [2]].foldl (Granule.AddPart lexLess)
        (NewGranule lexLess [intPart [3, 7, 9], intPart [4]])).least = ⟨[1]⟩ ∧
      (∀ r ∈ firstRows
          ([intPart [3, 7, 9], intPart [4]] ++ [intPart [1, 5], intPart [], intPart [2]]),
        lexLess r ([intPart [1, 5], intPart [], intPart [2]].foldl (Granule.AddPart lexLess)
          (NewGranule lexLess [intPart [3, 7, 9], intPart [4]])).least = false) :=
  ⟨by decide,
    (addPart_least_minimum lexLess lexLess_order [intPart [3, 7, 9], intPart [4]]
      [intPart [1, 5], intPart [], intPart [2]] (by decide) (by decide) (by decide)).2.2.1⟩

/-- The defect behind C8 for any `Row.Less`: when the first part is empty, or
there is no initial part, a later first row that is not `Less` than the zero
row never replaces the zero row. -/
theorem least_stays_zero {S V : Type} (less : Row V → Row V → Bool) (p q : Part S V)
    (r : Row V) (rs : List (Row V)) (hp : p.rows = []) (hq : q.rows = r :: rs)
    (hless : less r Row.zero = false) :
    (NewGranule less [p, q]).least = Row.zero ∧
      ((NewGranule less []).AddPart less q).least = Row.zero := by
  constructor
  · rw [newGranule_cons_of_empty less p [q] hp]
    simp [firstRows, hq, keepLeast, hless]
  · rw [addPart_eq]
    simp [firstRows, hq, keepLeast, hless, NewGranule, NewGranule.loop]

/-- C8 fails on the code: with an empty first part followed by the part [1], and
with no initial part followed by `AddPart` of the part [1], the only first row
is 1 but `least` is the zero row. -/
theorem least_zero_despite_rows :
    firstRows [intPart [], intPart [1]] = [⟨[1]⟩] ∧
      (NewGranule lexLess [intPart [], intPart [1]]).least = Row.zero ∧
      ((NewGranule lexLess []).AddPart lexLess (intPart [1])).parts = [intPart [1]] ∧
      ((NewGranule lexLess []).AddPart lexLess (intPart [1])).least = Row.zero ∧
      (Row.zero : Row Int) ≠ ⟨[1]⟩ := by
  decide

/-- C2: for a granule whose parts (of one schema, in any number, overlapping or
not) are each sorted, `Iterator()` returns, draining the returned iterator
(`Next` until false, `Row` after each true) returns, and in the rows read no row
is `Less` than a row read before it. -/
theorem iterator_rows_sorted {S V : Type} [DecidableEq S] [Inhabited S]
    (less : Row V → Row V → Bool) (ho : RowOrder less) (g : Granule S V)
    (hsch : SameSchema g.parts) (hs : ∀ p ∈ g.parts, Sorted less p.rows) :
    ∃ gi g1 rows gi1, g.Iterator less = .ok (gi, g1) ∧ gi.drain = .ok (rows, gi1) ∧
      Sorted less rows := by
  obtain ⟨gi1, hd⟩ := drain_single (mergeRows less (g.parts.map Part.rows)) Row.zero none
  refine ⟨_, _, _, gi1, iterator_ok less g hsch, hd, ?_⟩
  apply mergeRows_sorted ho
  intro rs hrs
  obtain ⟨p, hp, rfl⟩ := List.mem_map.1 hrs
  exact hs p hp

/-- C2 at the overlapping parts [3,7,9], [1,5] and [5,8]. -/
theorem iterator_rows_sorted_witness :
    ∃ gi g1 rows gi1,
      (NewGranule lexLess [intPart [3, 7, 9], intPart [1, 5], intPart [5, 8]]).Iterator lexLess
        = .ok (gi, g1) ∧
      gi.drain = .ok (rows, gi1) ∧ Sorted lexLess rows :=
  iterator_rows_sorted lexLess lexLess_order
    (NewGranule lexLess [intPart [3, 7, 9], intPart [1, 5], intPart [5, 8]])
    (by decide) (by decide)

/-- C9: for a granule whose parts have one schema, `Iterator()` called twice in
a row returns both times, draining the two iterators gives the same rows, after
the first call the granule holds exactly one part, and the second call leaves
the granule as the first call left it. -/
theorem iterator_twice_same_rows {S V : Type} [DecidableEq S] [Inhabited S]
    (less : Row V → Row V → Bool) (g : Granule S V) (hsch : SameSchema g.parts) :
    ∃ gi g1 rows gi1 gj g2 gj1,
      g.Iterator less = .ok (gi, g1) ∧ gi.drain = .ok (rows, gi1) ∧
      g1.Iterator less = .ok (gj, g2) ∧ gj.drain = .ok (rows, gj1) ∧
      g1.parts.length = 1 ∧ g2 = g1 := by
  obtain ⟨gi1, hd⟩ := drain_single (mergeRows less (g.parts.map Part.rows)) Row.zero none
  refine ⟨_, _, _, gi1, _, _, gi1, iterator_ok less g hsch, hd, ?_, hd, rfl, rfl⟩
  rw [iterator_ok less _ (by intro p hp q hq; simp at hp hq; rw [hp, hq])]
  simp [mergeRows, mergeTwo_nil_right]

/-- C9 at the parts [3,7,9] and [1,5]. -/
theorem iterator_twice_same_rows_witness :
    ∃ gi g1 rows gi1 gj g2 gj1,
      (NewGranule lexLess [intPart [3, 7, 9], intPart [1, 5]]).Iterator lexLess = .ok (gi, g1) ∧
      gi.drain = .ok (rows, gi1) ∧
      g1.Iterator lexLess = .ok (gj, g2) ∧ gj.drain = .ok (rows, gj1) ∧
      g1.parts.length = 1 ∧ g2 = g1 :=
  iterator_twice_same_rows lexLess (NewGranule lexLess [intPart [3, 7, 9], intPart [1, 5]])
    (by decide)

/-- C10: for a granule whose parts have one schema and carry their row count as
cardinality, `Iterator()` returns, the rows read by draining the iterator are a
permutation of all rows of the parts held before the call, and `Cardinality()`
after the call equals `Cardinality()` before it. -/
theorem iterator_rows_perm {S V : Type} [DecidableEq S] [Inhabited S]
    (less : Row V → Row V → Bool) (g : Granule S V) (hsch : SameSchema g.parts)
    (hcard : ∀ p ∈ g.parts, p.Cardinality = (p.rows.length : Int)) :
    ∃ gi g1 rows gi1, g.Iterator less = .ok (gi, g1) ∧ gi.drain = .ok (rows, gi1) ∧
      rows.Perm (allRows g.parts) ∧ g1.parts.length = 1 ∧
      (g1.Cardinality).1 = (g.Cardinality).1 := by
  obtain ⟨gi1, hd⟩ := drain_single (mergeRows less (g.parts.map Part.rows)) Row.zero none
  refine ⟨_, _, _, gi1, iterator_ok less g hsch, hd, mergeRows_perm less g.parts, rfl, ?_⟩
  rw [cardinality_eq_wrap, cardinality_eq_wrap]
  simp only [List.map_cons, List.map_nil, List.sum_cons, List.sum_nil, add_zero]
  rw [(mergeRows_perm less g.parts).length_eq, allRows_length_cardinality g.parts hcard]

/-- C10, the scenario of the specification: parts [3,7,9] and [1,5] yield
[1,3,5,7,9] and leave one part of cardinality 5. -/
theorem iterator_rows_perm_witness :
    ((NewGranule lexLess [intPart [3, 7, 9], intPart [1, 5]]).Iterator lexLess
        = .ok ({ its := [(intPart [1, 3, 5, 7, 9]).Iterator], currPartIndex := 0 },
               { least := ⟨[1]⟩, parts := [intPart [1, 3, 5, 7, 9]] }) ∧
      (GranuleIterator.drain { its := [(intPart [1, 3, 5, 7, 9]).Iterator], currPartIndex := 0 }
        ).map Prod.fst = .ok (intPart [1, 3, 5, 7, 9]).rows) ∧
    ∃ gi g1 rows gi1,
      (NewGranule lexLess [intPart [3, 7, 9], intPart [1, 5]]).Iterator lexLess = .ok (gi, g1) ∧
      gi.drain = .ok (rows, gi1) ∧
      rows.Perm (allRows (NewGranule lexLess [intPart [3, 7, 9], intPart [1, 5]]).parts) ∧
      g1.parts.length = 1 ∧
      (g1.Cardinality).1 = ((NewGranule lexLess [intPart [3, 7, 9], intPart [1, 5]]).Cardinality).1 :=
  ⟨by decide,
    iterator_rows_perm lexLess (NewGranule lexLess [intPart [3, 7, 9], intPart [1, 5]])
      (by decide) (by decide)⟩

/-- C3 fails as stated: on the sorted part [1,3,5], `Split(n)` with `n = 2^62` fails at
`make([]Row, 0, n)` on a 64-bit platform, so it returns no granules whose rows
concatenate to the rows of the part. -/
theorem split_rows_concat_fails :
    Granule.Split limits64 (fun _ _ => true) lexLess (NewGranule lexLess [intPart [1, 3, 5]]) 4611686018427387904
      = .error .capOutOfRange ∧
    ¬ ∃ gs g1,
      Granule.Split limits64 (fun _ _ => true) lexLess (NewGranule lexLess [intPart [1, 3, 5]]) 4611686018427387904 = .ok (gs, g1) ∧
      granuleRows gs = (intPart [1, 3, 5]).rows := by
  have hfail : Granule.Split limits64 (fun _ _ => true) lexLess (NewGranule lexLess [intPart [1, 3, 5]]) 4611686018427387904
      = .error .capOutOfRange := by decide
  refine ⟨hfail, ?_⟩
  rintro ⟨gs, g1, h, -⟩
  rw [hfail] at h
  exact absurd h (by simp)

/-- C3, as amended: for a granule holding exactly one sorted (buildable) part
with rows `R` and `n ≥ 1` such that the two `make` calls of `Split` return,
`Split(n)` returns, and the rows of the parts of the returned granules,
concatenated in output order, are exactly `R`. -/
theorem split_rows_concat {S V : Type} (lim : MakeLimits) (conforms : S → Row V → Bool)
    (less : Row V → Row V → Bool) (g : Granule S V) (p : Part S V) (n : Int)
    (hparts : g.parts = [p]) (hb : p.Buildable conforms less) (hn : 1 ≤ n)
    (hfit : SplitFits lim p.Cardinality n) :
    ∃ gs g1, g.Split lim conforms less n = .ok (gs, g1) ∧ granuleRows gs = p.rows := by
  obtain ⟨bs, hsplit, hflat, _, _⟩ := split_spec lim conforms less g p n hparts hb hn hfit
  exact ⟨_, _, hsplit, by rw [granuleRows_map_batchGranule, hflat]⟩

/-- C3, the scenario of the specification: [1,3,5,7,9] with `Split(2)` gives
[1,3], [5,7], [9]. -/
theorem split_rows_concat_witness :
    ((Granule.Split limits64 (fun _ _ => true) lexLess (NewGranule lexLess [intPart [1, 3, 5, 7, 9]]) 2
        ).map (fun out => out.1.map (fun h => h.parts.map Part.rows))
      = .ok [[(intPart [1, 3]).rows], [(intPart [5, 7]).rows], [(intPart [9]).rows]]) ∧
    ∃ gs g1,
      Granule.Split limits64 (fun _ _ => true) lexLess (NewGranule lexLess [intPart [1, 3, 5, 7, 9]]) 2 = .ok (gs, g1) ∧
      granuleRows gs = (intPart [1, 3, 5, 7, 9]).rows :=
  ⟨by decide,
    split_rows_concat limits64 (fun _ _ => true) lexLess (NewGranule lexLess [intPart [1, 3, 5, 7, 9]])
      (intPart [1, 3, 5, 7, 9]) 2 (by decide) (by decide) (by decide) (by decide)⟩

/-- C4 fails as stated: on the part [1,3,5] of cardinality 3, `Split(n)` with
`n = 2^62` fails at `make([]Row, 0, n)` on a 64-bit platform instead of
returning one granule. -/
theorem split_batch_sizes_fails :
    Granule.Split limits64 (fun _ _ => true) lexLess (NewGranule lexLess [intPart [1, 3, 5]]) 4611686018427387904
      = .error .capOutOfRange ∧
    ¬ ∃ gs g1,
      Granule.Split limits64 (fun _ _ => true) lexLess (NewGranule lexLess [intPart [1, 3, 5]]) 4611686018427387904 = .ok (gs, g1) ∧
      (gs.length : Int)
        = ⌈((intPart [1, 3, 5]).Cardinality : ℚ) / ((4611686018427387904 : Int) : ℚ)⌉ := by
  have hfail : Granule.Split limits64 (fun _ _ => true) lexLess (NewGranule lexLess [intPart [1, 3, 5]]) 4611686018427387904
      = .error .capOutOfRange := by decide
  refine ⟨hfail, ?_⟩
  rintro ⟨gs, g1, h, -⟩
  rw [hfail] at h
  exact absurd h (by simp)

/-- C4, as amended: for a granule holding exactly one well-formed part of
cardinality `C` (its row count) and `n ≥ 1` such that the two `make` calls of
`Split` return, `Split(n)` returns exactly `⌈C / n⌉` granules; every returned
granule but the last holds exactly `n` rows, the last holds between 1 and `n`
rows, and the `Cardinality()` values of the returned granules sum to `C`. -/
theorem split_batch_sizes {S V : Type} (lim : MakeLimits) (conforms : S → Row V → Bool)
    (less : Row V → Row V → Bool) (g : Granule S V) (p : Part S V) (n : Int)
    (hparts : g.parts = [p]) (hwf : p.WellFormed conforms less) (hn : 1 ≤ n)
    (hfit : SplitFits lim p.Cardinality n) :
    ∃ gs g1, g.Split lim conforms less n = .ok (gs, g1) ∧
      (gs.length : Int) = ⌈(p.Cardinality : ℚ) / (n : ℚ)⌉ ∧
      (∀ h ∈ gs.dropLast, ((allRows h.parts).length : Int) = n) ∧
      (∀ h, gs.getLast? = some h →
        1 ≤ (allRows h.parts).length ∧ ((allRows h.parts).length : Int) ≤ n) ∧
      (gs.map (fun h => (h.Cardinality).1)).sum = p.Cardinality := by
  obtain ⟨bs, hsplit, hflat, hne, hfull⟩ :=
    split_spec lim conforms less g p n hparts ⟨hwf.1, hwf.2.1⟩ hn hfit
  have hmax : n ≤ MaxInt := le_trans hfit.2.2 lim.maxRows_le
  obtain ⟨m, rfl⟩ := Int.eq_ofNat_of_zero_le (by omega : 0 ≤ n)
  refine ⟨_, _, hsplit, ?_, ?_, ?_, ?_⟩
  · rw [List.length_map, hwf.2.2, ← hflat]
    have := length_batches_eq_ceil bs m
      (fun b hb => ⟨(hne b hb).1, by exact_mod_cast (hne b hb).2⟩)
      (fun b hb => by exact_mod_cast hfull b hb)
    simpa using this
  · intro h hh
    rw [← List.map_dropLast] at hh
    obtain ⟨b, hb, rfl⟩ := List.mem_map.1 hh
    rw [allRows_batchGranule]
    exact hfull b hb
  · intro h hh
    have hmem : h ∈ bs.map (batchGranule less p.schema) := List.mem_of_getLast?_eq_some hh
    obtain ⟨b, hb, rfl⟩ := List.mem_map.1 hmem
    rw [allRows_batchGranule]
    refine ⟨?_, (hne b hb).2⟩
    rcases Nat.eq_zero_or_pos b.length with h0 | h0
    · exact absurd (List.length_eq_zero.1 h0) (hne b hb).1
    · exact h0
  · rw [sum_cardinality_map_batchGranule less p.schema bs
      (fun b hb => le_trans (hne b hb).2 hmax), hflat, hwf.2.2]

/-- C4 at the part [1,3,5,7,9] and `n = 2`: three granules, of 2, 2 and 1 rows. -/
theorem split_batch_sizes_witness :
    ((Granule.Split limits64 (fun _ _ => true) lexLess (NewGranule lexLess [intPart [1, 3, 5, 7, 9]]) 2
        ).map (fun out => out.1.map (fun h => (allRows h.parts).length))
      = .ok [2, 2, 1]) ∧
    ∃ gs g1,
      Granule.Split limits64 (fun _ _ => true) lexLess (NewGranule lexLess [intPart [1, 3, 5, 7, 9]]) 2 = .ok (gs, g1) ∧
      (gs.length : Int) = ⌈((intPart [1, 3, 5, 7, 9]).Cardinality : ℚ) / ((2 : Int) : ℚ)⌉ ∧
      (∀ h ∈ gs.dropLast, ((allRows h.parts).length : Int) = 2) ∧
      (∀ h, gs.getLast? = some h →
        1 ≤ (allRows h.parts).length ∧ ((allRows h.parts).length : Int) ≤ 2) ∧
      (gs.map (fun h => (h.Cardinality).1)).sum = (intPart [1, 3, 5, 7, 9]).Cardinality :=
  ⟨by decide,
    split_batch_sizes limits64 (fun _ _ => true) lexLess (NewGranule lexLess [intPart [1, 3, 5, 7, 9]])
      (intPart [1, 3, 5, 7, 9]) 2 (by decide) (by decide) (by decide) (by decide)⟩

/-- C5 fails as stated: on the sorted part [1,3,5], `Split(n)` with `n = 2^62` fails at
`make([]Row, 0, n)` on a 64-bit platform, so there are no returned granules to
be in order. -/
theorem split_granules_ordered_fails :
    Granule.Split limits64 (fun _ _ => true) lexLess (NewGranule lexLess [intPart [1, 3, 5]]) 4611686018427387904
      = .error .capOutOfRange ∧
    ¬ ∃ gs g1,
      Granule.Split limits64 (fun _ _ => true) lexLess (NewGranule lexLess [intPart [1, 3, 5]]) 4611686018427387904 = .ok (gs, g1) ∧
      gs.Chain' (fun a b => Granule.Less lexLess b a = false) := by
  have hfail : Granule.Split limits64 (fun _ _ => true) lexLess (NewGranule lexLess [intPart [1, 3, 5]]) 4611686018427387904
      = .error .capOutOfRange := by decide
  refine ⟨hfail, ?_⟩
  rintro ⟨gs, g1, h, -⟩
  rw [hfail] at h
  exact absurd h (by simp)

/-- C5, as amended: for a granule holding exactly one sorted (buildable) part
and `n ≥ 1` such that the two `make` calls of `Split` return, the granules
returned by `Split(n)` do not overlap and are in ascending order: for every
earlier and later returned granule, so for each consecutive pair, the later
granule's `least` is not `Less` than any row of the earlier granule, its last
row included, and the later granule is not `Less` than the earlier one. -/
theorem split_granules_ordered {S V : Type} (lim : MakeLimits) (conforms : S → Row V → Bool)
    (less : Row V → Row V → Bool) (g : Granule S V) (p : Part S V) (n : Int)
    (hparts : g.parts = [p]) (hb : p.Buildable conforms less) (hn : 1 ≤ n)
    (hfit : SplitFits lim p.Cardinality n) :
    ∃ gs g1, g.Split lim conforms less n = .ok (gs, g1) ∧
      gs.Pairwise (fun a b => (∀ r ∈ allRows a.parts, less b.least r = false) ∧
        Granule.Less less b a = false) ∧
      gs.Chain' (fun a b =>
        (∀ r, (allRows a.parts).getLast? = some r → less b.least r = false) ∧
        Granule.Less less b a = false) := by
  obtain ⟨bs, hsplit, hflat, hne, _⟩ := split_spec lim conforms less g p n hparts hb hn hfit
  have hpw := batchGranules_ordered less p.schema bs (fun b hb => (hne b hb).1)
    (by rw [hflat]; exact hb.2)
  refine ⟨_, _, hsplit, hpw, ?_⟩
  refine List.Pairwise.chain' (hpw.imp ?_)
  intro a b hab
  exact ⟨fun r hr => hab.1 r (List.mem_of_getLast?_eq_some hr), hab.2⟩

/-- C5 at the part [1,3,5,7,9] and `n = 2`: the least rows 1, 5, 9 against the
last rows 3, 7. -/
theorem split_granules_ordered_witness :
    ((Granule.Split limits64 (fun _ _ => true) lexLess (NewGranule lexLess [intPart [1, 3, 5, 7, 9]]) 2
        ).map (fun out => out.1.map (fun h => (h.least, (allRows h.parts).getLast?)))
      = .ok [(⟨[1]⟩, some ⟨[3]⟩), (⟨[5]⟩, some ⟨[7]⟩), (⟨[9]⟩, some ⟨[9]⟩)]) ∧
    ∃ gs g1,
      Granule.Split limits64 (fun _ _ => true) lexLess (NewGranule lexLess [intPart [1, 3, 5, 7, 9]]) 2 = .ok (gs, g1) ∧
      gs.Pairwise (fun a b => (∀ r ∈ allRows a.parts, lexLess b.least r = false) ∧
        Granule.Less lexLess b a = false) ∧
      gs.Chain' (fun a b =>
        (∀ r, (allRows a.parts).getLast? = some r → lexLess b.least r = false) ∧
        Granule.Less lexLess b a = false) :=
  ⟨by decide,
    split_granules_ordered limits64 (fun _ _ => true) lexLess (NewGranule lexLess [intPart [1, 3, 5, 7, 9]])
      (intPart [1, 3, 5, 7, 9]) 2 (by decide) (by decide) (by decide) (by decide)⟩

/-- C11: on a granule holding more than one part, `Split(n)` returns, for every
integer `n`, the sequence of length one whose only element is the granule
itself, and leaves the granule (its parts and its least) unchanged. -/
theorem split_noop_of_many_parts {S V : Type} (lim : MakeLimits) (conforms : S → Row V → Bool)
    (less : Row V → Row V → Bool) (g : Granule S V) (n : Int)
    (hmany : 1 < g.parts.length) :
    g.Split lim conforms less n = .ok ([g], g) := by
  unfold Granule.Split
  rw [if_pos hmany]

/-- C11 at the parts [3,7,9] and [1,5], for `n = 0`, `n = -4` and `n = 2`. -/
theorem split_noop_of_many_parts_witness :
    Granule.Split limits64 (fun _ _ => true) lexLess (NewGranule lexLess [intPart [3, 7, 9], intPart [1, 5]]) 0 = .ok ([NewGranule lexLess
        [intPart [3, 7, 9], intPart [1, 5]]], NewGranule lexLess
        [intPart [3, 7, 9], intPart [1, 5]]) ∧
    Granule.Split limits64 (fun _ _ => true) lexLess (NewGranule lexLess [intPart [3, 7, 9], intPart [1, 5]]) (-4) = .ok ([NewGranule lexLess
        [intPart [3, 7, 9], intPart [1, 5]]], NewGranule lexLess
        [intPart [3, 7, 9], intPart [1, 5]]) ∧
    Granule.Split limits64 (fun _ _ => true) lexLess (NewGranule lexLess [intPart [3, 7, 9], intPart [1, 5]]) 2 = .ok ([NewGranule lexLess
        [intPart [3, 7, 9], intPart [1, 5]]], NewGranule lexLess
        [intPart [3, 7, 9], intPart [1, 5]]) :=
  ⟨split_noop_of_many_parts limits64 _ lexLess _ 0 (by decide),
    split_noop_of_many_parts limits64 _ lexLess _ (-4) (by decide),
    split_noop_of_many_parts limits64 _ lexLess _ 2 (by decide)⟩

/-- C12 fails as stated: on the sorted part [1,3,5], `Split(n)` with `n = 2^62` fails
at `make([]Row, 0, n)` on a 64-bit platform, so there is no granule number 0
with least 1. -/
theorem split_least_of_batch_fails :
    Granule.Split limits64 (fun _ _ => true) lexLess (NewGranule lexLess [intPart [1, 3, 5]]) 4611686018427387904
      = .error .capOutOfRange ∧
    ¬ ∃ gs g1,
      Granule.Split limits64 (fun _ _ => true) lexLess (NewGranule lexLess [intPart [1, 3, 5]]) 4611686018427387904 = .ok (gs, g1) ∧
      ∃ h, gs[0]? = some h ∧ h.least = ⟨[1]⟩ := by
  have hfail : Granule.Split limits64 (fun _ _ => true) lexLess (NewGranule lexLess [intPart [1, 3, 5]]) 4611686018427387904
      = .error .capOutOfRange := by decide
  refine ⟨hfail, ?_⟩
  rintro ⟨gs, g1, h, -⟩
  rw [hfail] at h
  exact absurd h (by simp)

/-- C12, as amended: for a granule holding exactly one sorted (buildable) part
with rows `r_0 .. r_(C-1)` and `n ≥ 1` such that the two `make` calls of `Split`
return, the `i`-th granule returned by `Split(n)` has least `r_(i*n)` and holds
exactly one part. -/
theorem split_least_of_batch {S V : Type} (lim : MakeLimits) (conforms : S → Row V → Bool)
    (less : Row V → Row V → Bool) (g : Granule S V) (p : Part S V) (n : Int)
    (hparts : g.parts = [p]) (hb : p.Buildable conforms less) (hn : 1 ≤ n)
    (hfit : SplitFits lim p.Cardinality n) :
    ∃ gs g1, g.Split lim conforms less n = .ok (gs, g1) ∧
      ∀ (i : Nat) (h : Granule S V), gs[i]? = some h →
        p.rows[i * n.toNat]? = some h.least ∧ h.parts.length = 1 := by
  obtain ⟨bs, hsplit, hflat, hne, hfull⟩ :=
    split_spec lim conforms less g p n hparts hb hn hfit
  obtain ⟨m, rfl⟩ := Int.eq_ofNat_of_zero_le (by omega : 0 ≤ n)
  refine ⟨_, _, hsplit, ?_⟩
  intro i h hi
  rw [List.getElem?_map] at hi
  cases hbi : bs[i]? with
  | none => rw [hbi] at hi; simp at hi
  | some b =>
    rw [hbi] at hi
    simp only [Option.map_some', Option.some.injEq] at hi
    subst hi
    have hmem : b ∈ bs := List.getElem?_mem hbi
    obtain ⟨r, rs, hrs⟩ := List.exists_cons_of_ne_nil (hne b hmem).1
    subst hrs
    refine ⟨?_, by rw [batchGranule_parts]; rfl⟩
    rw [batchGranule_least, ← hflat, Int.toNat_ofNat]
    exact getElem?_flatten_batches m bs i r rs
      (fun c hc => by exact_mod_cast hfull c hc) hbi

/-- C12, the scenario of the specification: [1,3,5,7,9] with `Split(2)` gives
the least values 1, 5, 9. -/
theorem split_least_of_batch_witness :
    ((Granule.Split limits64 (fun _ _ => true) lexLess (NewGranule lexLess [intPart [1, 3, 5, 7, 9]]) 2
        ).map (fun out => out.1.map (fun h => (h.least, h.parts.length)))
      = .ok [(⟨[1]⟩, 1), (⟨[5]⟩, 1), (⟨[9]⟩, 1)]) ∧
    ∃ gs g1,
      Granule.Split limits64 (fun _ _ => true) lexLess (NewGranule lexLess [intPart [1, 3, 5, 7, 9]]) 2 = .ok (gs, g1) ∧
      ∀ (i : Nat) (h : Granule Unit Int), gs[i]? = some h →
        (intPart [1, 3, 5, 7, 9]).rows[i * (2 : Int).toNat]? = some h.least ∧
          h.parts.length = 1 :=
  ⟨by decide,
    split_least_of_batch limits64 (fun _ _ => true) lexLess (NewGranule lexLess [intPart [1, 3, 5, 7, 9]])
      (intPart [1, 3, 5, 7, 9]) 2 (by decide) (by decide) (by decide) (by decide)⟩

/-- C14: `g.Less(h)` is `g.least.Less(h.least)`, whatever the parts of the two
granules are; so `Granule.Less` is irreflexive when `Row.Less` is, and
transitive when `Row.Less` is. -/
theorem granule_less_is_least_less {S V : Type} (less : Row V → Row V → Bool) :
    (∀ g h : Granule S V, Granule.Less less g h = less g.least h.least) ∧
    (∀ (a b : Row V) (ps ps1 qs qs1 : List (Part S V)),
      Granule.Less less { least := a, parts := ps } { least := b, parts := qs }
        = Granule.Less less { least := a, parts := ps1 } { least := b, parts := qs1 }) ∧
    ((∀ a, less a a = false) → ∀ g : Granule S V, Granule.Less less g g = false) ∧
    ((∀ a b c, less a b = true → less b c = true → less a c = true) →
      ∀ g h k : Granule S V, Granule.Less less g h = true → Granule.Less less h k = true →
        Granule.Less less g k = true) := by
  refine ⟨fun _ _ => rfl, fun _ _ _ _ _ _ => rfl, ?_, ?_⟩
  · intro hirr g
    exact hirr g.least
  · intro htr g h k hgh hhk
    exact htr _ _ _ hgh hhk

/-- C15: `AddPart(p)` keeps the parts held before, in order, and appends `p` as
the last part; `least` becomes the first row of `p` when `p` has one and it is
`Less` than the current least, and is unchanged when `p` is empty or its first
row is not `Less` than the current least. -/
theorem addPart_frame {S V : Type} (less : Row V → Row V → Bool) (g : Granule S V)
    (p : Part S V) :
    (g.AddPart less p).parts = g.parts ++ [p] ∧
    (∀ r rs, p.rows = r :: rs → less r g.least = true → (g.AddPart less p).least = r) ∧
    (∀ r rs, p.rows = r :: rs → less r g.least = false →
      (g.AddPart less p).least = g.least) ∧
    (p.rows = [] → (g.AddPart less p).least = g.least) := by
  rw [addPart_eq]
  refine ⟨rfl, ?_, ?_, ?_⟩
  · intro r rs hrows hl
    simp [firstRows, hrows, keepLeast, hl]
  · intro r rs hrows hl
    simp [firstRows, hrows, keepLeast, hl]
  · intro hrows
    simp [firstRows, hrows]

/-- C13 fails on the code: for every iterator returned by `Iterator()`, once
draining has ended (`Next()` has returned false) the part index stands past the
only part iterator and `Err()` fails with an index out of range, whether the
rows ended cleanly or not. -/
theorem err_after_end_fails {S V : Type} [DecidableEq S] [Inhabited S]
    (less : Row V → Row V → Bool) (g g1 : Granule S V) (gi : GranuleIterator V)
    (hit : g.Iterator less = .ok (gi, g1)) :
    ∀ (rows : List (Row V)) (gi1 : GranuleIterator V), gi.drain = .ok (rows, gi1) →
      gi1.Err = .error .indexOutOfRange := by
  intro rows gi1 hd
  exact err_after_drainLoop _ gi gi1 rows (iterator_its_length less g g1 gi hit).1 hd

/-- C13 at the parts [3,7,9] and [1,5]: the rows end cleanly and `Err()` fails;
and on a part iterator that stopped on a fault, `Next()` returns false and
`Err()` fails instead of giving the fault. -/
theorem err_after_end_fails_witness :
    ((NewGranule lexLess [intPart [3, 7, 9], intPart [1, 5]]).Iterator lexLess
        = .ok ({ its := [(intPart [1, 3, 5, 7, 9]).Iterator], currPartIndex := 0 },
               { least := ⟨[1]⟩, parts := [intPart [1, 3, 5, 7, 9]] }) ∧
      GranuleIterator.drain { its := [(intPart [1, 3, 5, 7, 9]).Iterator], currPartIndex := 0 }
        = .ok ((intPart [1, 3, 5, 7, 9]).rows,
               { its := [{ pending := [], current := ⟨[9]⟩, err := none }],
                 currPartIndex := 1 }) ∧
      GranuleIterator.Err
          { its := [{ pending := [], current := (⟨[9]⟩ : Row Int), err := none }],
            currPartIndex := 1 }
        = .error .indexOutOfRange) ∧
    (GranuleIterator.Next
        { its := [{ pending := [], current := (⟨[9]⟩ : Row Int), err := some "fault" }],
          currPartIndex := 0 }
        = .ok (false, { its := [{ pending := [], current := ⟨[9]⟩, err := some "fault" }],
                        currPartIndex := 1 }) ∧
      GranuleIterator.Err
          { its := [{ pending := [], current := (⟨[9]⟩ : Row Int), err := some "fault" }],
            currPartIndex := 1 }
        = .error .indexOutOfRange) :=
  ⟨⟨by decide, by decide,
      err_after_end_fails lexLess (NewGranule lexLess [intPart [3, 7, 9], intPart [1, 5]])
        { least := ⟨[1]⟩, parts := [intPart [1, 3, 5, 7, 9]] }
        { its := [(intPart [1, 3, 5, 7, 9]).Iterator], currPartIndex := 0 } (by decide)
        (intPart [1, 3, 5, 7, 9]).rows
        { its := [{ pending := [], current := ⟨[9]⟩, err := none }], currPartIndex := 1 }
        (by decide)⟩,
    by decide, by decide⟩

/-- C16 fails as stated: over the part iterators of [1], an empty part and [2],
draining reads only 1 and stops with the part index at the empty part, while
the rows of the parts in part order are 1, 2; and over two empty parts followed
by [2] it reads nothing. -/
theorem drain_stops_at_empty_part :
    (GranuleIterator.drain
        { its := [(intPart [1]).Iterator, (intPart []).Iterator, (intPart [2]).Iterator],
          currPartIndex := 0 }).map (fun out => (out.1, out.2.currPartIndex))
      = .ok ([⟨[1]⟩], 1) ∧
    allRows [intPart [1], intPart [], intPart [2]] = [⟨[1]⟩, ⟨[2]⟩] ∧
    (GranuleIterator.drain
        { its := [(intPart [1]).Iterator, (intPart []).Iterator, (intPart [2]).Iterator],
          currPartIndex := 0 }).map Prod.fst
      ≠ .ok (allRows [intPart [1], intPart [], intPart [2]]) ∧
    (GranuleIterator.drain
        { its := [(intPart []).Iterator, (intPart []).Iterator, (intPart [2]).Iterator],
          currPartIndex := 0 }).map (fun out => (out.1, out.2.currPartIndex))
      = .ok ([], 1) ∧
    allRows [intPart [], intPart [], intPart [2]] = [⟨[2]⟩] := by
  decide

/-- C16, as amended: for a `GranuleIterator` over part iterators starting at
part index 0 in which the first part iterator may be empty and, after it, those
with rows (`ne`) all come before the empty ones (`em`), so that no empty part
other than the first is followed by a part with rows: draining returns, the rows
read are exactly the concatenation of the rows of the parts in part order, and
every part iterator is left exhausted. -/
theorem drain_concat_without_gap {V : Type} (it0 : PartIterator V)
    (ne em : List (PartIterator V)) (hne : ∀ it ∈ ne, it.pending ≠ [])
    (hem : ∀ it ∈ em, it.pending = []) :
    ∃ gi1,
      GranuleIterator.drain { its := it0 :: (ne ++ em), currPartIndex := 0 }
        = .ok (((it0 :: (ne ++ em)).map (fun it => it.pending)).flatten, gi1) ∧
      gi1.its.length = (it0 :: (ne ++ em)).length ∧
      ∀ it ∈ gi1.its, it.pending = [] := by
  have hfuel : it0.pending.length + (ne.map (fun it => it.pending)).flatten.length
      < ((it0 :: (ne ++ em)).map (fun it => it.pending.length)).sum + 1 := by
    have := length_flatten_pending_le ne em
    simp only [List.map_cons, List.sum_cons]
    omega
  obtain ⟨gi1, tail, hd, hits, hlen, hex⟩ := drainLoop_sequence _ [] it0 ne em hne hem hfuel
  refine ⟨gi1, ?_, ?_, ?_⟩
  · unfold GranuleIterator.drain
    simp only [List.nil_append, List.length_nil] at hd
    rw [hd]
    simp only [List.map_cons, List.flatten_cons, List.map_append, List.flatten_append,
      flatten_pending_of_empty em hem, List.append_nil]
  · rw [hits]; simpa using hlen
  · rw [hits]; simpa using hex

/-- C16 at an empty part, [1], [2,3] and an empty part: the rows read are 1, 2,
3; and at the single part iterator that `Iterator()` builds. -/
theorem drain_concat_without_gap_witness :
    ((GranuleIterator.drain
        { its := [(intPart []).Iterator, (intPart [1]).Iterator, (intPart [2, 3]).Iterator,
            (intPart []).Iterator], currPartIndex := 0 }).map Prod.fst
      = .ok [⟨[1]⟩, ⟨[2]⟩, ⟨[3]⟩]) ∧
    (∃ gi1,
      GranuleIterator.drain
          { its := (intPart []).Iterator
              :: ([(intPart [1]).Iterator, (intPart [2, 3]).Iterator] ++ [(intPart []).Iterator]),
            currPartIndex := 0 }
        = .ok ((((intPart []).Iterator
              :: ([(intPart [1]).Iterator, (intPart [2, 3]).Iterator]
                  ++ [(intPart []).Iterator])).map (fun it => it.pending)).flatten, gi1) ∧
      gi1.its.length = ((intPart []).Iterator
          :: ([(intPart [1]).Iterator, (intPart [2, 3]).Iterator]
              ++ [(intPart []).Iterator])).length ∧
      ∀ it ∈ gi1.its, it.pending = []) :=
  ⟨by decide,
    drain_concat_without_gap (intPart []).Iterator
      [(intPart [1]).Iterator, (intPart [2, 3]).Iterator] [(intPart []).Iterator]
      (by decide) (by decide)⟩

/-- C17 fails as stated: the granule holds exactly one part, the sorted part
[1,3,5], and `n = 2^62 ≥ 1`, yet `Split(n)` does not complete: it fails at
`make([]Row, 0, n)` on a 64-bit platform. And on one part whose `Cardinality`
field is -5, `Split(1)` fails at `make([]*Granule, 0, count)`. -/
theorem split_fails_at_large_n :
    (NewGranule lexLess [intPart [1, 3, 5]]).parts.length = 1 ∧ (1 : Int) ≤ 4611686018427387904 ∧
    Granule.Split limits64 (fun _ _ => true) lexLess (NewGranule lexLess [intPart [1, 3, 5]]) 4611686018427387904 = .error .capOutOfRange ∧
    (¬ ∃ out, Granule.Split limits64 (fun _ _ => true) lexLess (NewGranule lexLess [intPart [1, 3, 5]]) 4611686018427387904 = .ok out) ∧
    Granule.Split limits64 (fun _ _ => true) lexLess
        { least := ⟨[1]⟩, parts := [{ schema := (), rows := [⟨[1]⟩], Cardinality := -5 }] } 1
      = .error .capOutOfRange := by
  have hfail : Granule.Split limits64 (fun _ _ => true) lexLess (NewGranule lexLess [intPart [1, 3, 5]]) 4611686018427387904
      = .error .capOutOfRange := by decide
  refine ⟨by decide, by decide, hfail, ?_, by decide⟩
  rintro ⟨out, h⟩
  rw [hfail] at h
  exact absurd h (by simp)

/-- C17, as amended: on a granule of buildable parts (part construction succeeds
on every batch of their rows), `Split(n)` completes exactly when the granule
holds more than one part, or exactly one part, `n ≥ 1` and the two `make` calls
return (the count and `n` are capacities that `make` accepts); without a part
it fails with an index out of range, and with exactly one part it fails with a
division by zero for `n = 0`, with a capacity out of range for `n < 0`, and
with a capacity out of range for `n ≥ 1` when a `make` call does not return. -/
theorem split_completes_iff {S V : Type} (lim : MakeLimits) (conforms : S → Row V → Bool)
    (less : Row V → Row V → Bool) (g : Granule S V) (n : Int)
    (hb : ∀ p ∈ g.parts, p.Buildable conforms less) :
    ((∃ out, g.Split lim conforms less n = .ok out) ↔
        (1 < g.parts.length ∨
          ∃ p, g.parts = [p] ∧ 1 ≤ n ∧ SplitFits lim p.Cardinality n)) ∧
    (g.parts.length = 0 → g.Split lim conforms less n = .error .indexOutOfRange) ∧
    (g.parts.length = 1 → n = 0 → g.Split lim conforms less n = .error .divideByZero) ∧
    (g.parts.length = 1 → n < 0 → g.Split lim conforms less n = .error .capOutOfRange) ∧
    (∀ p, g.parts = [p] → 1 ≤ n → ¬ SplitFits lim p.Cardinality n →
      g.Split lim conforms less n = .error .capOutOfRange) := by
  refine ⟨?_, ?_, ?_, ?_, ?_⟩
  · cases hparts : g.parts with
    | nil =>
      rw [split_no_parts lim conforms less g n hparts]
      simp
    | cons p ps =>
      cases ps with
      | cons q qs =>
        rw [split_noop_of_many_parts lim conforms less g n (by rw [hparts]; simp)]
        simp
      | nil =>
        simp only [List.length_singleton, lt_self_iff_false, false_or, List.cons.injEq,
          and_true, exists_eq_left']
        by_cases hn0 : n = 0
        · subst hn0
          rw [split_zero lim conforms less g p hparts]
          constructor
          · rintro ⟨out, hout⟩; simp at hout
          · rintro ⟨h, -⟩; omega
        · by_cases hfit : SplitFits lim p.Cardinality n
          · have hn : 1 ≤ n := by
              have := hfit.2.1
              omega
            obtain ⟨bs, hsplit, -⟩ := split_spec lim conforms less g p n hparts
              (hb p (by rw [hparts]; exact List.mem_cons_self _ _)) hn hfit
            exact ⟨fun _ => ⟨hn, hfit⟩, fun _ => ⟨_, hsplit⟩⟩
          · rw [split_capacity lim conforms less g p n hparts hn0 hfit]
            constructor
            · rintro ⟨out, hout⟩; simp at hout
            · rintro ⟨-, h⟩; exact absurd h hfit
  · intro h0
    exact split_no_parts lim conforms less g n (List.length_eq_zero.1 h0)
  · intro h1 hn
    obtain ⟨p, hp⟩ := List.length_eq_one.1 h1
    subst hn
    exact split_zero lim conforms less g p hp
  · intro h1 hn
    obtain ⟨p, hp⟩ := List.length_eq_one.1 h1
    refine split_capacity lim conforms less g p n hp (by omega) ?_
    intro hfit
    have := hfit.2.1
    omega
  · intro p hp hn hfit
    exact split_capacity lim conforms less g p n hp (by omega) hfit

/-- C17 at the single part [1,3,5]: `Split(2)` completes, `Split(0)`,
`Split(-2)` and `Split(2^62)` fail, and without a part `Split(2)` fails. -/
theorem split_completes_iff_witness :
    (((∃ out, Granule.Split limits64 (fun _ _ => true) lexLess (NewGranule lexLess [intPart [1, 3, 5]]) 2 = .ok out) ↔
        (1 < (NewGranule lexLess [intPart [1, 3, 5]]).parts.length ∨
          ∃ p, (NewGranule lexLess [intPart [1, 3, 5]]).parts = [p] ∧ (1 : Int) ≤ 2 ∧ SplitFits limits64 p.Cardinality 2)) ∧
      ((NewGranule lexLess [intPart [1, 3, 5]]).parts.length = 0 →
        Granule.Split limits64 (fun _ _ => true) lexLess (NewGranule lexLess [intPart [1, 3, 5]]) 2 = .error .indexOutOfRange) ∧
      ((NewGranule lexLess [intPart [1, 3, 5]]).parts.length = 1 → (2 : Int) = 0 →
        Granule.Split limits64 (fun _ _ => true) lexLess (NewGranule lexLess [intPart [1, 3, 5]]) 2 = .error .divideByZero) ∧
      ((NewGranule lexLess [intPart [1, 3, 5]]).parts.length = 1 → (2 : Int) < 0 →
        Granule.Split limits64 (fun _ _ => true) lexLess (NewGranule lexLess [intPart [1, 3, 5]]) 2 = .error .capOutOfRange) ∧
      (∀ p, (NewGranule lexLess [intPart [1, 3, 5]]).parts = [p] → (1 : Int) ≤ 2 → ¬ SplitFits limits64 p.Cardinality 2 →
        Granule.Split limits64 (fun _ _ => true) lexLess (NewGranule lexLess [intPart [1, 3, 5]]) 2 = .error .capOutOfRange)) ∧
    (Granule.Split limits64 (fun _ _ => true) lexLess (NewGranule lexLess [intPart [1, 3, 5]]) 2).map (fun out => out.1.length) = .ok 2 ∧
    Granule.Split limits64 (fun _ _ => true) lexLess (NewGranule lexLess [intPart [1, 3, 5]]) 0 = .error .divideByZero ∧
    Granule.Split limits64 (fun _ _ => true) lexLess (NewGranule lexLess [intPart [1, 3, 5]]) (-2) = .error .capOutOfRange ∧
    Granule.Split limits64 (fun _ _ => true) lexLess (NewGranule lexLess ([] : List (Part Unit Int))) 2
      = .error .indexOutOfRange :=
  ⟨split_completes_iff limits64 (fun _ _ => true) lexLess (NewGranule lexLess [intPart [1, 3, 5]]) 2 (by decide),
    by decide, by decide, by decide, by decide⟩

/-- C18 fails on the code: the granule built by `NewGranule()` without a part
and `AddPart` of the non-empty sorted part [1] has the zero row as least;
`Iterator()` leaves it so, the first row yielded is 1, and the zero row is
`Less` than 1. -/
theorem least_not_equiv_first_row :
    ((NewGranule lexLess []).AddPart lexLess (intPart [1])).parts = [intPart [1]] ∧
    ((NewGranule lexLess []).AddPart lexLess (intPart [1])).least = Row.zero ∧
    ((NewGranule lexLess []).AddPart lexLess (intPart [1])).Iterator lexLess
      = .ok ({ its := [(intPart [1]).Iterator], currPartIndex := 0 },
             { least := Row.zero, parts := [intPart [1]] }) ∧
    (GranuleIterator.drain { its := [(intPart [1]).Iterator], currPartIndex := 0 }
      ).map Prod.fst = .ok [⟨[1]⟩] ∧
    lexLess Row.zero ⟨[1]⟩ = true := by
  decide

/-- C19 fails as stated: the granule holds exactly one part, the sorted part
[1,3,5] at address 0, and `n = 2^62 ≥ 1`, yet `Split(n)` fails at
`make([]Row, 0, n)` on a 64-bit platform: the call does not complete and returns
no granule. -/
theorem splitRef_fails_at_large_n :
    GranuleRef.Split limits64 (fun _ _ => true) lexLess [intPart [1, 3, 5]]
        { least := ⟨[1]⟩, parts := [0] } 4611686018427387904
      = .error .capOutOfRange ∧
    ¬ ∃ gs g1 store1,
      GranuleRef.Split limits64 (fun _ _ => true) lexLess [intPart [1, 3, 5]]
          { least := ⟨[1]⟩, parts := [0] } 4611686018427387904
        = .ok (gs, g1, store1) := by
  have hfail : GranuleRef.Split limits64 (fun _ _ => true) lexLess [intPart [1, 3, 5]]
      { least := ⟨[1]⟩, parts := [0] } 4611686018427387904 = .error .capOutOfRange := by decide
  refine ⟨hfail, ?_⟩
  rintro ⟨gs, g1, store1, h⟩
  rw [hfail] at h
  exact absurd h (by simp)

/-- C19, as amended: for a granule holding exactly one part, at the address `a`
of the store, and `n ≥ 1`: whenever `Split(n)` returns, the granule is as it was
and the store is the store before the call with new parts appended, so the part
at `a` is the same part; every returned granule holds exactly one part, at an
address that was not allocated before the call, hence not `a`, and that is
allocated after it. And `Split(n)` returns when the part is buildable and the
two `make` calls return: the granules that `Split` returns on the part pointed
to, their parts allocated at the end of the store. -/
theorem split_leaves_receiver {S V : Type} (lim : MakeLimits) (conforms : S → Row V → Bool)
    (less : Row V → Row V → Bool) (store : List (Part S V)) (g : GranuleRef V) (a : Nat)
    (p : Part S V) (n : Int) (hparts : g.parts = [a]) (ha : store[a]? = some p)
    (hn : 1 ≤ n) :
    (∀ gs g1 store1, g.Split lim conforms less store n = .ok (gs, g1, store1) →
      g1 = g ∧ (∃ new, store1 = store ++ new) ∧ store1[a]? = some p ∧
      ∀ h ∈ gs, ∃ b q, h.parts = [b] ∧ b ≠ a ∧ store[b]? = none ∧ store1[b]? = some q) ∧
    (p.Buildable conforms less → SplitFits lim p.Cardinality n →
      ∃ gsV, Granule.Split lim conforms less { least := g.least, parts := [p] } n
          = .ok (gsV, { least := g.least, parts := [p] }) ∧
        g.Split lim conforms less store n
          = .ok (refsFrom store.length gsV, g, store ++ partsOf gsV)) := by
  have halt : a < store.length := (List.getElem?_eq_some.1 ha).1
  constructor
  · intro gs g1 store1 h
    rw [splitRef_eq lim conforms less store g a p n hparts ha] at h
    cases hv : Granule.Split lim conforms less { least := g.least, parts := [p] } n with
    | error e => rw [hv] at h; simp at h
    | ok res =>
      obtain ⟨gsV, gv⟩ := res
      rw [hv] at h
      simp only [Except.ok.injEq, Prod.mk.injEq] at h
      obtain ⟨h1, h2, h3⟩ := h
      have hsingle := (split_ok_shape lim conforms less _ gv p n gsV rfl hv).2
      refine ⟨h2.symm, ⟨_, h3.symm⟩, ?_, ?_⟩
      · rw [← h3, List.getElem?_append_left halt]; exact ha
      · intro x hx
        rw [← h1] at hx
        obtain ⟨b, hb, hb1, hb2⟩ := mem_refsFrom gsV store.length x hx
        have hb3 : b < store1.length := by
          rw [← h3, List.length_append, partsOf_length gsV hsingle]; exact hb2
        exact ⟨b, store1[b], hb, by omega, List.getElem?_eq_none hb1,
          List.getElem?_eq_getElem hb3⟩
  · intro hb hfit
    obtain ⟨bs, hsplit, -⟩ := split_spec lim conforms less
      { least := g.least, parts := [p] } p n rfl hb hn hfit
    refine ⟨_, hsplit, ?_⟩
    rw [splitRef_eq lim conforms less store g a p n hparts ha, hsplit]

/-- C19 at the part [1,3,5,7,9] at address 0 and `n = 2`: three granules with
their parts at the new addresses 1, 2, 3; and at the part [1,3,5] and `n = 5`:
the returned granule holds a part with the same rows at the new address 1. -/
theorem split_leaves_receiver_witness :
    (GranuleRef.Split limits64 (fun _ _ => true) lexLess [intPart [1, 3, 5, 7, 9]]
        { least := ⟨[1]⟩, parts := [0] } 2
      = .ok ([{ least := ⟨[1]⟩, parts := [1] }, { least := ⟨[5]⟩, parts := [2] },
              { least := ⟨[9]⟩, parts := [3] }],
             { least := ⟨[1]⟩, parts := [0] },
             [intPart [1, 3, 5, 7, 9], intPart [1, 3], intPart [5, 7], intPart [9]]) ∧
      GranuleRef.Split limits64 (fun _ _ => true) lexLess [intPart [1, 3, 5]]
          { least := ⟨[1]⟩, parts := [0] } 5
        = .ok ([{ least := ⟨[1]⟩, parts := [1] }], { least := ⟨[1]⟩, parts := [0] },
               [intPart [1, 3, 5], intPart [1, 3, 5]])) ∧
    ((∀ gs g1 store1,
        GranuleRef.Split limits64 (fun _ _ => true) lexLess [intPart [1, 3, 5, 7, 9]]
            { least := ⟨[1]⟩, parts := [0] } 2 = .ok (gs, g1, store1) →
        g1 = { least := ⟨[1]⟩, parts := [0] } ∧
        (∃ new, store1 = [intPart [1, 3, 5, 7, 9]] ++ new) ∧
        store1[0]? = some (intPart [1, 3, 5, 7, 9]) ∧
        ∀ h ∈ gs, ∃ b q, h.parts = [b] ∧ b ≠ 0 ∧
          [intPart [1, 3, 5, 7, 9]][b]? = none ∧ store1[b]? = some q) ∧
      ((intPart [1, 3, 5, 7, 9]).Buildable (fun _ _ => true) lexLess →
        SplitFits limits64 (intPart [1, 3, 5, 7, 9]).Cardinality 2 →
        ∃ gsV, Granule.Split limits64 (fun _ _ => true) lexLess
              { least := ⟨[1]⟩, parts := [intPart [1, 3, 5, 7, 9]] } 2
            = .ok (gsV, { least := ⟨[1]⟩, parts := [intPart [1, 3, 5, 7, 9]] }) ∧
          GranuleRef.Split limits64 (fun _ _ => true) lexLess [intPart [1, 3, 5, 7, 9]]
              { least := ⟨[1]⟩, parts := [0] } 2
            = .ok (refsFrom [intPart [1, 3, 5, 7, 9]].length gsV,
                   { least := ⟨[1]⟩, parts := [0] },
                   [intPart [1, 3, 5, 7, 9]] ++ partsOf gsV))) :=
  ⟨by decide,
    split_leaves_receiver limits64 (fun _ _ => true) lexLess [intPart [1, 3, 5, 7, 9]]
      { least := ⟨[1]⟩, parts := [0] } 0 (intPart [1, 3, 5, 7, 9]) 2 (by decide) (by decide)
      (by decide)⟩

end columnstore
